import Mathlib

/-!
Verification development for the tw-stock-dashboard repository.

The development shallowly embeds the data-reconciliation core of the
repository (src/app.py and src/fetch_monthly_revenue.py):

* pandas DataFrames are modelled as `Table`: a list of column names and a
  list of rows, each row a list of `Cell` values.  A pandas cell is either
  NaN/NaT (`Cell.null`), a string, a date, or a number.
* Code that can raise a Python exception is modelled in `Except PyErr`.
* `sort_values` is modelled as a stable insertion sort on a total sort key
  (pandas' sort is deterministic; cross-type comparisons, which pandas
  would reject, are given an arbitrary fixed order via a rank — the data
  handled by the dashboard always has homogeneous sort keys).
* pandas NaN being placed last by `sort_values` is reflected by giving
  `Cell.null` the greatest rank.
* the FinMind provider is an abstract parameter
  `provider : String → ℤ → Except PyErr Table` (ticker, start date);
  dates are encoded as integers `yyyymmdd`.
* `pct_change` float semantics (IEEE: x/0 is ±inf for x ≠ 0, 0/0 is NaN,
  NaN propagates, no fault is raised) are modelled by `FVal` and `pctVal`,
  with the no-fill (`fill_method=None`) behaviour of pandas.
-/

namespace TwStock

/-- Scalar value held by one cell of a DataFrame.  `null` models NaN/NaT. -/
inductive Cell where
  | null
  | str (s : String)
  | date (d : ℤ)
  | num (q : ℚ)
deriving DecidableEq

/-- Rank used to totalise comparisons between cells of different kinds.
`null` ranks last, matching pandas' `na_position` default in `sort_values`. -/
def Cell.rank : Cell → ℕ
  | .str _ => 0
  | .date _ => 1
  | .num _ => 2
  | .null => 3

/-- Lexicographic comparison of character lists by code point, the order
Python uses on strings. -/
def charsLe : List Char → List Char → Bool
  | [], _ => true
  | _ :: _, [] => false
  | a :: as, b :: bs =>
    if a.toNat < b.toNat then true
    else if b.toNat < a.toNat then false
    else charsLe as bs

/-- Total comparison of cells: cells of one kind compare by their native
order (the order pandas uses); cells of different kinds compare by rank. -/
def Cell.leB : Cell → Cell → Bool
  | .str x, .str y => charsLe x.data y.data
  | .date x, .date y => decide (x ≤ y)
  | .num x, .num y => decide (x ≤ y)
  | a, b => decide (a.rank ≤ b.rank)

/-- DataFrame model: named columns and rows of cells. -/
structure Table where
  cols : List String
  rows : List (List Cell)
deriving DecidableEq

/-- Python exception classes reachable in the embedded code.  The registry
header check raises `ValueError` in the source; the spec's taxonomy names
that fault class `SchemaError`, which we use as the constructor name. -/
inductive PyErr where
  | schemaError (missing : List String)
  | keyError (col : String)
  | typeError (msg : String)
  | providerFault (msg : String)
deriving DecidableEq

/-- Registry entry (one row of groups.csv after load_groups). -/
structure Entry where
  ticker : String
  name : String
  sector : String
deriving DecidableEq

/-- Delimited registry source: header row plus data rows of strings. -/
structure Csv where
  header : List String
  rows : List (List String)
deriving DecidableEq

/-- Cell of a row at position `i`; out-of-range reads give NaN, matching
pandas alignment of ragged data. -/
def cellAt (row : List Cell) (i : ℕ) : Cell :=
  row.getD i Cell.null

/-- ASCII whitespace test, as Python `str.strip` removes (the registry
headers and fields this system handles are ASCII-spaced). -/
def isSpaceChar (c : Char) : Bool :=
  c.toNat = 32 || c.toNat = 9 || c.toNat = 10 ||
  c.toNat = 13 || c.toNat = 11 || c.toNat = 12

/-- Drops leading whitespace characters. -/
def dropLeadingSpace : List Char → List Char
  | [] => []
  | c :: cs => if isSpaceChar c then dropLeadingSpace cs else c :: cs

/-- Python `str.strip()`: drop trailing then leading whitespace. -/
def pyStrip (s : String) : String :=
  ⟨dropLeadingSpace ((dropLeadingSpace s.data.reverse).reverse)⟩

/-- ASCII lowering of one character, as Python `str.lower()` on the ASCII
range this system's headers use. -/
def lowerChar (c : Char) : Char :=
  if 65 ≤ c.toNat ∧ c.toNat ≤ 90 then Char.ofNat (c.toNat + 32) else c

/-- Python `str.lower()`. -/
def pyLower (s : String) : String :=
  ⟨s.data.map lowerChar⟩

/-- Python slicing `s[:n]` (first `n` characters). -/
def pyTake (s : String) (n : ℕ) : String :=
  ⟨s.data.take n⟩

/-- Header normalization `[c.strip().lower() for c in df.columns]`. -/
def normalizeCols (cs : List String) : List String :=
  cs.map (fun c => pyLower (pyStrip c))

/-- String cell of a csv row under column `c` (first matching column).
A missing value is pandas NaN, which `astype(str)` renders as "nan". -/
def csvCell (cols : List String) (row : List String) (c : String) : String :=
  match List.indexOf? c cols with
  | some i => row.getD i "nan"
  | none => "nan"

/-- Embeds `load_groups` of src/app.py: normalize the header, fail when any
of ticker/name/sector is missing, and coerce the three fields of every data
row to trimmed strings. -/
def load_groups (csv : Csv) : Except PyErr (List Entry) :=
  let cols := normalizeCols csv.header
  let missing := ["ticker", "name", "sector"].filter (fun c => ¬ c ∈ cols)
  if missing = [] then
    .ok (csv.rows.map (fun r =>
      { ticker := pyStrip (csvCell cols r "ticker")
        sector := pyStrip (csvCell cols r "sector")
        name := pyStrip (csvCell cols r "name") }))
  else .error (.schemaError missing)

/-- Canonical revenue-row columns. -/
def canonCols : List String := ["ticker", "name", "date", "revenue"]

/-- Normalization `pd.to_datetime(col).dt.date` of one cell: dates pass
through, NaN stays NaT, anything else raises. -/
def toDateCell : Cell → Except PyErr Cell
  | .date d => .ok (.date d)
  | .null => .ok .null
  | _ => .error (.typeError "to_datetime")

/-- Applies a fallible transformation to the cells of column `c`;
a missing column raises KeyError, as indexing a DataFrame would. -/
def mapColM (t : Table) (c : String) (f : Cell → Except PyErr Cell) :
    Except PyErr Table :=
  match List.indexOf? c t.cols with
  | none => .error (.keyError c)
  | some i => do
      let rows ← t.rows.mapM (fun r => do
        let v ← f (cellAt r i)
        pure (r.set i v))
      pure ⟨t.cols, rows⟩

/-- Sheet filter of `load_excel_dashboard`: keep a sheet only when its
column set contains ticker, name, date and revenue; then normalize its
date column. -/
def includeSheets : List (String × Table) → Except PyErr (List (String × Table))
  | [] => .ok []
  | (nm, df) :: rest =>
    if canonCols.all (fun c => c ∈ df.cols) then do
      let df2 ← mapColM df "date" toDateCell
      let tl ← includeSheets rest
      .ok ((nm, df2) :: tl)
    else includeSheets rest

/-- Embeds `load_excel_dashboard` of src/app.py.  The cache artifact is
`none` when the file does not exist on disk, otherwise the list of sheets
of the workbook in order. -/
def load_excel_dashboard (file : Option (List (String × Table))) :
    Except PyErr (List (String × Table)) :=
  match file with
  | none => .ok []
  | some sheets => includeSheets sheets

/-- Column-name translation applied by `DataFrame.rename` in both fetchers. -/
def finmindRename (c : String) : String :=
  if c = "stock_id" then "ticker"
  else if c = "Revenue" then "revenue"
  else if c = "revenue" then "revenue"
  else if c = "date" then "date"
  else if c = "stock_name" then "name"
  else c

/-- Renames the columns of a table. -/
def Table.renameCols (t : Table) (f : String → String) : Table :=
  ⟨t.cols.map f, t.rows⟩

/-- Python `str()` of a cell, as `astype(str)` applies it (NaN prints "nan"). -/
def cellToStr : Cell → String
  | .str s => s
  | .date d => toString d
  | .num q => toString q
  | .null => "nan"

/-- Embeds `df[c] = df[c].astype(str)`; raises KeyError when `c` is absent. -/
def astypeStrCol (t : Table) (c : String) : Except PyErr Table :=
  match List.indexOf? c t.cols with
  | none => .error (.keyError c)
  | some i => .ok ⟨t.cols, t.rows.map (fun r => r.set i (.str (cellToStr (cellAt r i))))⟩

/-- The ticker-to-name dictionary `set_index("ticker")["name"].to_dict()`:
on duplicate tickers the last row wins. -/
def nameMapLookup (groups : List Entry) (t : String) : Option String :=
  (groups.reverse.find? (fun e => e.ticker = t)).map (fun e => e.name)

/-- `Series.map(dict)` on one ticker cell: a string key found in the
dictionary maps to its name, anything else to NaN. -/
def mapNameCell (dict : String → Option String) : Cell → Cell
  | .str s =>
      match dict s with
      | some n => .str n
      | none => .null
  | _ => .null

/-- Boolean test `df[c].isna().all()`; vacuously true when the column is
absent (the callers only use it guarded by a presence test). -/
def isnaAll (t : Table) (c : String) : Bool :=
  match List.indexOf? c t.cols with
  | none => true
  | some i => t.rows.all (fun r => cellAt r i = Cell.null)

/-- Column assignment `df[c] = f(row)`: overwrite an existing column or
append a new one at the end. -/
def setColWith (t : Table) (c : String) (f : List Cell → Cell) : Table :=
  match List.indexOf? c t.cols with
  | some i => ⟨t.cols, t.rows.map (fun r => r.set i (f r))⟩
  | none => ⟨t.cols ++ [c], t.rows.map (fun r => r ++ [f r])⟩

/-- The loop `for c in need: if c not in out.columns: out[c] = np.nan`. -/
def addMissingCols (t : Table) : List String → Table
  | [] => t
  | c :: cs =>
    if c ∈ t.cols then addMissingCols t cs
    else addMissingCols ⟨t.cols ++ [c], t.rows.map (fun r => r ++ [Cell.null])⟩ cs

/-- Column projection `df[cs]`; raises KeyError when a requested column is
missing. -/
def selectCols (t : Table) (cs : List String) : Except PyErr Table :=
  if cs.all (fun c => c ∈ t.cols) then
    .ok ⟨cs, t.rows.map (fun r =>
      cs.map (fun c => cellAt r ((List.indexOf? c t.cols).getD 0)))⟩
  else .error (.keyError "columns")

/-- Lexicographic comparison of two (ticker cell, date cell) key pairs. -/
def keyPairLeB (a b : Cell × Cell) : Bool :=
  if a.1 = b.1 then Cell.leB a.2 b.2 else Cell.leB a.1 b.1

/-- Key pair of a row, given the column positions of ticker and date. -/
def rowKeyAt (ti di : ℕ) (r : List Cell) : Cell × Cell :=
  (cellAt r ti, cellAt r di)

/-- Lexicographic (ticker, date) comparison of two rows, given the column
positions of ticker and date. -/
def rowLeB (ti di : ℕ) (a b : List Cell) : Bool :=
  keyPairLeB (rowKeyAt ti di a) (rowKeyAt ti di b)

/-- Embeds `df.sort_values("date")` (stable, NaT last). -/
def sortRowsByDate (t : Table) : Except PyErr Table :=
  match List.indexOf? "date" t.cols with
  | none => .error (.keyError "date")
  | some i => .ok ⟨t.cols,
      t.rows.insertionSort (fun a b => Cell.leB (cellAt a i) (cellAt b i) = true)⟩

/-- Embeds `df.sort_values(["ticker", "date"])` (stable, lexicographic). -/
def sortRowsByTickerDate (t : Table) : Except PyErr Table :=
  match List.indexOf? "ticker" t.cols, List.indexOf? "date" t.cols with
  | some ti, some di => .ok ⟨t.cols,
      t.rows.insertionSort (fun a b => rowLeB ti di a b = true)⟩
  | _, _ => .error (.keyError "sort_values")

/-- Fixed fetch start of the interactive fetcher: `datetime(2023, 1, 1)`,
encoded yyyymmdd. -/
def epochStart : ℤ := 20230101

/-- Empty canonical table `pd.DataFrame(columns=["ticker","name","date","revenue"])`. -/
def emptyCanon : Table := ⟨canonCols, []⟩

/-- Embeds `fetch_monthly_revenue_finmind` of src/app.py.  `provider`
abstracts `DataLoader.taiwan_stock_month_revenue` (a raising call surfaces
as `.error`); `groups` is the loaded registry used for the name backfill.
The `years` parameter is accepted but, as in the source, the start date is
always `epochStart`. -/
def fetch_monthly_revenue_finmind (groups : List Entry)
    (provider : String → ℤ → Except PyErr Table)
    (ticker : String) (years : ℕ) : Except PyErr Table := do
  let raw ← provider ticker epochStart
  if raw.rows = [] then
    .ok emptyCanon
  else do
    let out := raw.renameCols finmindRename
    let out ← astypeStrCol out "ticker"
    let out ← mapColM out "date" toDateCell
    let out :=
      if ¬ ("name" ∈ out.cols) ∨ isnaAll out "name" then
        setColWith out "name"
          (fun r => mapNameCell (nameMapLookup groups)
            (cellAt r ((List.indexOf? "ticker" out.cols).getD 0)))
      else out
    let out := addMissingCols out canonCols
    let out ← selectCols out canonCols
    sortRowsByDate out

/-- Legacy single-sheet fallback name used by `get_sector_data`. -/
def SHEET_NAME_FALLBACK : String := "連接器"

/-- Dictionary lookup on the sheet mapping. -/
def lookupSheet (sheets : List (String × Table)) (nm : String) : Option Table :=
  (sheets.find? (fun p => p.1 = nm)).map (fun p => p.2)

/-- Auxiliary accumulator form of first-occurrence deduplication. -/
def dedupFirstAux (seen : List String) : List String → List String
  | [] => []
  | x :: xs =>
    if x ∈ seen then dedupFirstAux seen xs
    else x :: dedupFirstAux (seen ++ [x]) xs

/-- Order-preserving first-occurrence deduplication, as `Series.unique`. -/
def dedupFirst (l : List String) : List String := dedupFirstAux [] l

/-- Embeds `sheet.query("ticker in @tickers")`: keep the rows whose ticker
cell equals one of the given strings. -/
def queryTickerIn (sh : Table) (tickers : List String) : Except PyErr Table :=
  match List.indexOf? "ticker" sh.cols with
  | none => .error (.keyError "ticker")
  | some i => .ok ⟨sh.cols,
      sh.rows.filter (fun r => tickers.any (fun t => cellAt r i = .str t))⟩

/-- Ordered union of the column lists of several frames, as `pd.concat`
aligns columns (first appearance wins, no duplicates). -/
def unionCols (frames : List Table) : List String :=
  frames.foldl (fun acc t =>
    t.cols.foldl (fun a c => if c ∈ a then a else a ++ [c]) acc) []

/-- Reindexes one row of frame `t` to the column list `cs`, filling columns
absent from `t` with NaN. -/
def reindexRow (t : Table) (cs : List String) (r : List Cell) : List Cell :=
  cs.map (fun c =>
    match List.indexOf? c t.cols with
    | some i => cellAt r i
    | none => Cell.null)

/-- Embeds `pd.concat(frames, ignore_index=True)` (outer column alignment). -/
def concatTables (frames : List Table) : Table :=
  let cs := unionCols frames
  ⟨cs, (frames.map (fun t => t.rows.map (reindexRow t cs))).flatten⟩

/-- Embeds `df.dropna(subset=["date"])`. -/
def dropnaDate (t : Table) : Except PyErr Table :=
  match List.indexOf? "date" t.cols with
  | none => .error (.keyError "date")
  | some i => .ok ⟨t.cols, t.rows.filter (fun r => cellAt r i ≠ Cell.null)⟩

/-- Embeds `get_sector_data` of src/app.py.  `fetch` abstracts the call to
`fetch_monthly_revenue_finmind(t)` (whose raise, if any, propagates). -/
def get_sector_data (sector : String) (groups : List Entry)
    (sheets : List (String × Table)) (fetch : String → Except PyErr Table) :
    Except PyErr Table := do
  let tickers := dedupFirst ((groups.filter (fun e => e.sector = sector)).map (fun e => e.ticker))
  let cacheFrames ←
    match lookupSheet sheets sector with
    | some sh => do
        let f ← queryTickerIn sh tickers
        pure [f]
    | none =>
      match lookupSheet sheets SHEET_NAME_FALLBACK with
      | some sh => do
          let f ← queryTickerIn sh tickers
          pure [f]
      | none => pure ([] : List Table)
  let haveCells : List Cell :=
    match List.indexOf? "ticker" (concatTables cacheFrames).cols with
    | some i => (concatTables cacheFrames).rows.map (fun r => cellAt r i)
    | none => []
  let needT := tickers.filter (fun t => ¬ (Cell.str t) ∈ haveCells)
  let liveFrames ← needT.mapM fetch
  let frames := cacheFrames ++ liveFrames
  if frames = [] then
    .ok emptyCanon
  else do
    let c := concatTables frames
    let c ← dropnaDate c
    sortRowsByTickerDate c

/-- Float-valued growth rate: finite, NaN, or a signed infinity. -/
inductive FVal where
  | nan
  | posInf
  | negInf
  | fin (q : ℚ)
deriving DecidableEq

/-- One step of `pct_change`: `cur / prev - 1` under IEEE float semantics
(NaN operands propagate; division by zero yields a signed infinity, or NaN
for 0/0; no fault is raised).  Nulls model NaN; `fill_method=None`. -/
def pctVal (cur prev : Option ℚ) : FVal :=
  match cur, prev with
  | some a, some b =>
      if b = 0 then (if a = 0 then .nan else if 0 < a then .posInf else .negInf)
      else .fin (a / b - 1)
  | _, _ => .nan

/-- Typed revenue row as held by the KPI enricher: the canonical columns
plus the two derived columns (whose incoming values, if any, are
overwritten by `enrich_kpi`). -/
structure KRow where
  ticker : String
  name : Option String
  date : ℤ
  revenue : Option ℚ
  revenue_mom : FVal
  revenue_yoy : FVal
deriving DecidableEq

instance : Inhabited KRow := ⟨⟨"", none, 0, none, .nan, .nan⟩⟩

/-- Lexicographic comparison of typed (ticker, date) keys. -/
def tdLeB (a b : String × ℤ) : Bool :=
  if a.1 = b.1 then decide (a.2 ≤ b.2) else charsLe a.1.data b.1.data

/-- Typed (ticker, date) key of a row. -/
def KRow.key (r : KRow) : String × ℤ := (r.ticker, r.date)

/-- Lexicographic (ticker, date) comparison of two typed rows. -/
def krowLeB (a b : KRow) : Bool := tdLeB a.key b.key

/-- Revenues of the already-seen rows of one ticker's group, in order:
the state `groupby("ticker")` holds when it reaches a row. -/
def grpPrevRevs (seen : List KRow) (t : String) : List (Option ℚ) :=
  (seen.filter (fun r => r.ticker = t)).map (fun r => r.revenue)

/-- `pct_change(k)` at one row: compare with the revenue `k` group
positions earlier, NaN when the group has fewer than `k` earlier rows. -/
def pctK (prevs : List (Option ℚ)) (cur : Option ℚ) (k : ℕ) : FVal :=
  match prevs.reverse.get? (k - 1) with
  | none => .nan
  | some p => pctVal cur p

/-- Row-by-row computation of `groupby("ticker").pct_change()` and
`.pct_change(12)`, threading the rows already seen. -/
def enrichGo (seen : List KRow) : List KRow → List KRow
  | [] => []
  | r :: rs =>
    let prevs := grpPrevRevs seen r.ticker
    { r with
        revenue_mom := pctK prevs r.revenue 1
        revenue_yoy := pctK prevs r.revenue 12 } :: enrichGo (seen ++ [r]) rs

/-- Embeds `enrich_kpi` of src/app.py: an empty table is returned
unchanged; otherwise sort by (ticker, date) and recompute the MoM and YoY
columns per ticker group. -/
def enrich_kpi (df : List KRow) : List KRow :=
  if df = [] then df
  else enrichGo [] (df.insertionSort (fun a b => krowLeB a b = true))

/-- Reference shape of one ticker group's (MoM, YoY) sequence: element `p`
compares the group's revenue at `p` with the revenues 1 and 12 positions
earlier, given the revenues `pref` of rows before the group's start. -/
def momYoySpec (pref : List (Option ℚ)) : List (Option ℚ) → List (FVal × FVal)
  | [] => []
  | v :: vs => (pctK pref v 1, pctK pref v 12) :: momYoySpec (pref ++ [v]) vs

/-- Start date of the batch fetch:
`datetime.today().date().replace(day=1).replace(year=today.year - years)`.
In the yyyymmdd integer encoding, replacing the day by 1 is
`d - d % 100 + 1` and going back `years` years subtracts `10000 * years`. -/
def batchStart (today : ℤ) (years : ℕ) : ℤ :=
  (today - today % 100 + 1) - 10000 * years

/-- Name backfill dictionary of `fetch_all`, built from the raw csv rows:
`df.assign(ticker=astype(str)).set_index("ticker")["name"].to_dict()`
(last row wins, no trimming). -/
def csvNameMap (cols : List String) (rows : List (List String)) (t : String) :
    Option String :=
  (rows.reverse.find? (fun r => csvCell cols r "ticker" = t)).map
    (fun r => csvCell cols r "name")

/-- Per-ticker normalization of the batch fetcher `fetch_all`: rename the
provider columns, `astype(str)` the ticker, backfill the name from the
registry dictionary when absent or all-null, then select exactly the four
canonical columns (raising KeyError when date or revenue is missing). -/
def batchNormalize (dict : String → Option String) (sub : Table) :
    Except PyErr Table := do
  let s := sub.renameCols finmindRename
  let s ← astypeStrCol s "ticker"
  let s :=
    if ¬ ("name" ∈ s.cols) ∨ isnaAll s "name" then
      setColWith s "name"
        (fun r => mapNameCell dict (cellAt r ((List.indexOf? "ticker" s.cols).getD 0)))
    else s
  selectCols s canonCols

/-- Inner per-sector loop of `fetch_all`: fetch every ticker, skip empty
provider results, normalize the rest; a raising provider call propagates. -/
def sectorFrames (provider : String → ℤ → Except PyErr Table)
    (dict : String → Option String) (start : ℤ) :
    List String → Except PyErr (List Table)
  | [] => .ok []
  | t :: ts => do
    let sub ← provider t start
    if sub.rows = [] then sectorFrames provider dict start ts
    else do
      let s ← batchNormalize dict sub
      let rest ← sectorFrames provider dict start ts
      .ok (s :: rest)

/-- Distinct tickers of one sector, in registry order:
`df.query("sector == @sector")["ticker"].astype(str).unique()`. -/
def sectorTickers (cols : List String) (rows : List (List String))
    (sector : String) : List String :=
  dedupFirst ((rows.filter (fun r => csvCell cols r "sector" = sector)).map
    (fun r => csvCell cols r "ticker"))

/-- Outer loop of `fetch_all`: one entry per sector that produced at least
one non-empty frame — a sector with no data gets no sheet. -/
def buildSheets (provider : String → ℤ → Except PyErr Table)
    (dict : String → Option String) (start : ℤ)
    (cols : List String) (rows : List (List String)) :
    List String → Except PyErr (List (String × Table))
  | [] => .ok []
  | sector :: rest => do
    let ts := sectorTickers cols rows sector
    let frames ← sectorFrames provider dict start ts
    let tl ← buildSheets provider dict start cols rows rest
    if frames = [] then .ok tl
    else do
      let out := concatTables frames
      let out ← mapColM out "date" toDateCell
      let out ← sortRowsByTickerDate out
      .ok ((sector, out) :: tl)

/-- Observable test "the provider has rows for this ticker", used to state
which sectors receive a sheet. -/
def provNonempty (provider : String → ℤ → Except PyErr Table) (start : ℤ)
    (t : String) : Bool :=
  match provider t start with
  | .ok tb => decide (tb.rows ≠ [])
  | .error _ => false

/-- Embeds `fetch_all` of src/fetch_monthly_revenue.py: same header check
as `load_groups`, then the per-sector fetch loop over the sorted distinct
sectors of the registry. -/
def fetch_all (csv : Csv) (provider : String → ℤ → Except PyErr Table)
    (years : ℕ) (today : ℤ) : Except PyErr (List (String × Table)) :=
  let cols := normalizeCols csv.header
  let missing := ["ticker", "name", "sector"].filter (fun c => ¬ c ∈ cols)
  if missing = [] then
    let sectors := (dedupFirst (csv.rows.map (fun r => csvCell cols r "sector"))).insertionSort
      (fun a b => charsLe a.data b.data = true)
    buildSheets provider (csvNameMap cols csv.rows) (batchStart today years)
      cols csv.rows sectors
  else .error (.schemaError missing)

/-- Embeds the `__main__` block of src/fetch_monthly_revenue.py: run
`fetch_all`; `raise SystemExit(msg)` — a process exit with code 1 — when it
produced no sheets, else write one sheet per produced entry, sheet names
truncated to 31 characters.  The value is (exit code, written sheets). -/
def batch_main (csv : Csv) (provider : String → ℤ → Except PyErr Table)
    (today : ℤ) : Except PyErr (ℕ × List (String × Table)) := do
  let sheets ← fetch_all csv provider 3 today
  if sheets = [] then .ok (1, [])
  else .ok (0, sheets.map (fun p => (pyTake p.1 31, p.2)))

/-! Concrete instances used by witnesses and counterexamples. -/

/-- KPI table whose second row divides by a zero previous revenue. -/
def c3df : List KRow :=
  [⟨"A", none, 20240101, some 0, .nan, .nan⟩,
   ⟨"A", none, 20240201, some 100, .nan, .nan⟩]

/-- Provider frame that lacks a date column. -/
def rawNoDate : Table := ⟨["stock_id", "Revenue"], [[.str "T", .num 5]]⟩

/-- Two-ticker one-sector registry. -/
def gAB : List Entry := [⟨"A", "NA", "S"⟩, ⟨"B", "NB", "S"⟩]

/-- Provider that raises for ticker A and has one row for ticker B. -/
def provC1 : String → ℤ → Except PyErr Table := fun t _ =>
  if t = "A" then .error (.providerFault "down")
  else .ok ⟨["stock_id", "stock_name", "date", "revenue"],
            [[.str "B", .str "NB", .date 20240101, .num 7]]⟩

/-- Cache sheet holding the same (ticker, date) row twice. -/
def dupSheet : Table :=
  ⟨canonCols, [[.str "A", .str "NA", .date 20240101, .num 5],
               [.str "A", .str "NA", .date 20240101, .num 5]]⟩

/-- Duplicate-free cache sheet covering ticker A only. -/
def sheetA : Table := ⟨canonCols, [[.str "A", .str "NA", .date 20240101, .num 5]]⟩

/-- Two-sector registry: A in S1, B in S2. -/
def csv1 : Csv := ⟨["ticker", "name", "sector"], [["A", "NA", "S1"], ["B", "NB", "S2"]]⟩

/-- Provider with data for A only; B yields an empty frame. -/
def prov9 : String → ℤ → Except PyErr Table := fun t _ =>
  if t = "A" then
    .ok ⟨["stock_id", "stock_name", "date", "revenue"],
         [[.str "A", .str "NA", .date 20240101, .num 5]]⟩
  else .ok ⟨[], []⟩

/-- Cache sheet with the canonical columns plus an extra one. -/
def sheetW : Table :=
  ⟨["ticker", "name", "date", "revenue", "extra"],
   [[.str "A", .str "NA", .date 20240101, .num 5, .null]]⟩

/-- Registry source with unnormalized header and untrimmed fields. -/
def csvGood : Csv := ⟨["Ticker ", "Name", "SECTOR"], [[" 2330 ", "tsmc", "semi"]]⟩

/-- Registry source missing the name column. -/
def csvBad : Csv := ⟨["ticker", "sector"], [["2330", "semi"]]⟩

/-! Order-theoretic facts about the comparators backing `sort_values`. -/

theorem charsLe_total (x y : List Char) : charsLe x y = true ∨ charsLe y x = true := by
  induction x generalizing y with
  | nil => left; rfl
  | cons a as ih =>
    cases y with
    | nil => right; rfl
    | cons b bs =>
      simp only [charsLe]
      rcases Nat.lt_trichotomy a.toNat b.toNat with h | h | h
      · left; simp [h]
      · have h1 : ¬ a.toNat < b.toNat := by omega
        have h2 : ¬ b.toNat < a.toNat := by omega
        simp only [if_neg h1, if_neg h2]
        exact ih bs
      · right; simp [h]

theorem charsLe_trans : ∀ {x y z : List Char},
    charsLe x y = true → charsLe y z = true → charsLe x z = true := by
  intro x
  induction x with
  | nil => intro y z _ _; rfl
  | cons a as ih =>
    intro y z h1 h2
    cases y with
    | nil => simp [charsLe] at h1
    | cons b bs =>
      cases z with
      | nil => simp [charsLe] at h2
      | cons c cs =>
        simp only [charsLe] at h1 h2 ⊢
        by_cases hab : a.toNat < b.toNat <;> by_cases hbc : b.toNat < c.toNat
        · simp [show a.toNat < c.toNat by omega]
        · simp only [if_neg hbc] at h2
          by_cases hcb : c.toNat < b.toNat
          · simp [if_pos hcb] at h2
          · have hbc2 : b.toNat = c.toNat := by omega
            simp [show a.toNat < c.toNat by omega]
        · simp only [if_neg hab] at h1
          by_cases hba : b.toNat < a.toNat
          · simp [if_pos hba] at h1
          · have hab2 : a.toNat = b.toNat := by omega
            simp [show a.toNat < c.toNat by omega]
        · simp only [if_neg hab] at h1
          simp only [if_neg hbc] at h2
          by_cases hba : b.toNat < a.toNat
          · simp [if_pos hba] at h1
          · by_cases hcb : c.toNat < b.toNat
            · simp [if_pos hcb] at h2
            · simp only [if_neg hba] at h1
              simp only [if_neg hcb] at h2
              have h3 : ¬ a.toNat < c.toNat := by omega
              have h4 : ¬ c.toNat < a.toNat := by omega
              simp only [if_neg h3, if_neg h4]
              exact ih h1 h2

theorem charsLe_antisymm : ∀ {x y : List Char},
    charsLe x y = true → charsLe y x = true → x = y := by
  intro x
  induction x with
  | nil =>
    intro y _ h2
    cases y with
    | nil => rfl
    | cons b bs => simp [charsLe] at h2
  | cons a as ih =>
    intro y h1 h2
    cases y with
    | nil => simp [charsLe] at h1
    | cons b bs =>
      simp only [charsLe] at h1 h2
      by_cases hab : a.toNat < b.toNat
      · simp [if_neg (show ¬ b.toNat < a.toNat by omega), if_pos hab] at h2
      · by_cases hba : b.toNat < a.toNat
        · simp [if_neg hab, if_pos hba] at h1
        · simp only [if_neg hab, if_neg hba] at h1 h2
          have hn : a.toNat = b.toNat := by omega
          have hc : a = b := Char.ext (UInt32.toNat.inj (by simpa [Char.toNat] using hn))
          rw [hc, ih h1 h2]

theorem strLe_antisymm {x y : String}
    (h1 : charsLe x.data y.data = true) (h2 : charsLe y.data x.data = true) : x = y :=
  String.ext (charsLe_antisymm h1 h2)

theorem cellLeB_total (a b : Cell) : Cell.leB a b = true ∨ Cell.leB b a = true := by
  cases a <;> cases b <;>
    simp only [Cell.leB, Cell.rank, decide_eq_true_eq] <;>
    first
      | exact charsLe_total _ _
      | exact le_total _ _
      | omega

theorem cellLeB_trans {a b c : Cell}
    (h1 : Cell.leB a b = true) (h2 : Cell.leB b c = true) : Cell.leB a c = true := by
  cases a <;> cases b <;> cases c <;>
    simp only [Cell.leB, Cell.rank, decide_eq_true_eq] at h1 h2 ⊢ <;>
    first
      | exact charsLe_trans h1 h2
      | exact le_trans h1 h2
      | omega

theorem cellLeB_antisymm {a b : Cell}
    (h1 : Cell.leB a b = true) (h2 : Cell.leB b a = true) : a = b := by
  cases a <;> cases b <;>
    simp only [Cell.leB, Cell.rank, decide_eq_true_eq] at h1 h2 ⊢ <;>
    first
      | rfl
      | (rw [strLe_antisymm h1 h2])
      | (rw [le_antisymm h1 h2])
      | omega

theorem keyPairLeB_total (a b : Cell × Cell) :
    keyPairLeB a b = true ∨ keyPairLeB b a = true := by
  unfold keyPairLeB
  by_cases h : a.1 = b.1
  · have h2 : b.1 = a.1 := h.symm
    simp only [if_pos h, if_pos h2]
    exact cellLeB_total _ _
  · have h2 : ¬ b.1 = a.1 := fun e => h e.symm
    simp only [if_neg h, if_neg h2]
    exact cellLeB_total _ _

theorem keyPairLeB_trans {a b c : Cell × Cell}
    (h1 : keyPairLeB a b = true) (h2 : keyPairLeB b c = true) :
    keyPairLeB a c = true := by
  unfold keyPairLeB at h1 h2 ⊢
  by_cases e1 : a.1 = b.1 <;> by_cases e2 : b.1 = c.1
  · rw [if_pos e1] at h1
    rw [if_pos e2] at h2
    rw [if_pos (e1.trans e2)]
    exact cellLeB_trans h1 h2
  · rw [if_pos e1] at h1
    rw [if_neg e2] at h2
    have h3 : ¬ a.1 = c.1 := by rw [e1]; exact e2
    rw [if_neg h3, e1]
    exact h2
  · rw [if_neg e1] at h1
    rw [if_pos e2] at h2
    have h3 : ¬ a.1 = c.1 := fun e => e1 (e.trans e2.symm)
    rw [if_neg h3, ← e2]
    exact h1
  · rw [if_neg e1] at h1
    rw [if_neg e2] at h2
    by_cases e3 : a.1 = c.1
    · exact absurd (cellLeB_antisymm h2 (e3 ▸ h1)) e2
    · rw [if_neg e3]
      exact cellLeB_trans h1 h2

theorem bindE_eq_ok {α β : Type} {x : Except PyErr α} {f : α → Except PyErr β} {b : β}
    (h : x >>= f = .ok b) : ∃ a, x = .ok a ∧ f a = .ok b := by
  cases x with
  | error e => exact absurd h (by simp [Bind.bind, Except.bind])
  | ok a => exact ⟨a, rfl, by simpa [Bind.bind, Except.bind] using h⟩

theorem bindE_ok {α β : Type} {x : Except PyErr α} {f : α → Except PyErr β} {a : α}
    (h : x = .ok a) : x >>= f = f a := by
  subst h; rfl

theorem tdLeB_total (a b : String × ℤ) : tdLeB a b = true ∨ tdLeB b a = true := by
  unfold tdLeB
  by_cases h : a.1 = b.1
  · have h2 : b.1 = a.1 := h.symm
    simp only [if_pos h, if_pos h2, decide_eq_true_eq]
    exact le_total _ _
  · have h2 : ¬ b.1 = a.1 := fun e => h e.symm
    simp only [if_neg h, if_neg h2]
    exact charsLe_total _ _

theorem tdLeB_trans {a b c : String × ℤ}
    (h1 : tdLeB a b = true) (h2 : tdLeB b c = true) : tdLeB a c = true := by
  unfold tdLeB at h1 h2 ⊢
  by_cases e1 : a.1 = b.1 <;> by_cases e2 : b.1 = c.1
  · rw [if_pos e1] at h1
    rw [if_pos e2] at h2
    rw [if_pos (e1.trans e2), decide_eq_true_eq] at *
    exact le_trans h1 h2
  · rw [if_pos e1] at h1
    rw [if_neg e2] at h2
    have h3 : ¬ a.1 = c.1 := by rw [e1]; exact e2
    rw [if_neg h3, e1]
    exact h2
  · rw [if_neg e1] at h1
    rw [if_pos e2] at h2
    have h3 : ¬ a.1 = c.1 := fun e => e1 (e.trans e2.symm)
    rw [if_neg h3, ← e2]
    exact h1
  · rw [if_neg e1] at h1
    rw [if_neg e2] at h2
    by_cases e3 : a.1 = c.1
    · exact absurd (strLe_antisymm h2 (e3 ▸ h1)) e2
    · rw [if_neg e3]
      exact charsLe_trans h1 h2

/-! Claim theorems. -/

/-- C10: the interactive-path Live Fetcher's lookback parameter has no
effect on its result — for every registry, provider, ticker and any two
values of the years argument, `fetch_monthly_revenue_finmind` returns
identical output, because the fetch start date is always the fixed epoch
2023-01-01 regardless of years. -/
theorem C10_lookback_no_effect (groups : List Entry)
    (provider : String → ℤ → Except PyErr Table) (ticker : String) (y₁ y₂ : ℕ) :
    fetch_monthly_revenue_finmind groups provider ticker y₁
      = fetch_monthly_revenue_finmind groups provider ticker y₂ := rfl

/-- C1 counterexample: in a two-ticker sector with no cache, a provider
call that raises for ticker A aborts the whole resolution — the result is
the propagated error, so ticker B's row is not present in any resolved
output, contradicting the claim that resolution of the remaining tickers
still completes. -/
theorem C1_cex :
    get_sector_data "S" gAB []
      (fun t => fetch_monthly_revenue_finmind gAB provC1 t 3)
      = .error (.providerFault "down") := rfl

/-- C2 counterexample: a cache sheet holding the same (ticker, date) row
twice yields a resolved output with both copies — duplicates already
present in a cache sheet are not removed, so the resolved table does not
have at most one row per (ticker, date). -/
theorem C2_cex :
    (get_sector_data "S" [⟨"A", "NA", "S"⟩] [("S", dupSheet)]
      (fun t => fetch_monthly_revenue_finmind [⟨"A", "NA", "S"⟩] provC1 t 3)
      = .ok ⟨canonCols,
          [[.str "A", .str "NA", .date 20240101, .num 5],
           [.str "A", .str "NA", .date 20240101, .num 5]]⟩) ∧
    ¬ List.Pairwise (fun a b => rowKeyAt 0 2 a ≠ rowKeyAt 0 2 b)
        [[Cell.str "A", Cell.str "NA", Cell.date 20240101, Cell.num 5],
         [Cell.str "A", Cell.str "NA", Cell.date 20240101, Cell.num 5]] := by
  refine ⟨rfl, fun h => ?_⟩
  exact (List.pairwise_cons.mp h).1 _ (by simp) rfl

/-- C3 counterexample: a ticker whose revenue goes from 0 to 100 gets
`revenue_mom = +inf` on the second row — a zero denominator yields a
signed infinity, not null, contradicting the claim that both KPIs are null
whenever the denominator is zero. -/
theorem C3_cex :
    (enrich_kpi c3df).map (fun r => r.revenue_mom) = [.nan, .posInf] ∧
    FVal.posInf ≠ FVal.nan := ⟨rfl, by decide⟩

/-- C7 counterexample: a non-empty provider frame that lacks a date column
makes the Live Fetcher raise (KeyError on `out["date"]`) instead of adding
the missing canonical column filled with null. -/
theorem C7_cex :
    (fetch_monthly_revenue_finmind [] (fun _ _ => .ok rawNoDate) "T" 3
      = .error (.keyError "date")) ∧ rawNoDate.rows ≠ [] := ⟨rfl, by decide⟩

/-- C9 counterexample: with registry sectors S1 and S2 where only S1's
ticker has data, `fetch_all` produces a sheet for S1 only — sector S2 of
the registry gets no sheet, contradicting "one sheet per sector for every
sector in the Registry" (while the batch still exits 0 because one sector
produced data). -/
theorem C9_cex :
    ((fetch_all csv1 prov9 3 20251001).map (fun l => l.map Prod.fst) = .ok ["S1"]) ∧
    dedupFirst (csv1.rows.map (fun r => csvCell (normalizeCols csv1.header) r "sector"))
      = ["S1", "S2"] ∧
    batch_main csv1 prov9 20251001
      = .ok (0, [("S1", ⟨canonCols, [[.str "A", .str "NA", .date 20240101, .num 5]]⟩)]) :=
  ⟨rfl, rfl, rfl⟩

/-- C6: for a sector with zero tickers in the registry, no matching cache
sheet and no fallback sheet, `get_sector_data` does not raise and returns
the empty table that still carries the canonical columns. -/
theorem C6_empty_sector (sector : String) (groups : List Entry)
    (sheets : List (String × Table)) (fetch : String → Except PyErr Table)
    (h1 : ∀ e ∈ groups, e.sector ≠ sector)
    (h2 : lookupSheet sheets sector = none)
    (h3 : lookupSheet sheets SHEET_NAME_FALLBACK = none) :
    get_sector_data sector groups sheets fetch = .ok emptyCanon ∧
    emptyCanon.cols = canonCols := by
  have hf : groups.filter (fun e => e.sector = sector) = [] := by
    rw [List.filter_eq_nil_iff]
    intro e he
    simpa using h1 e he
  refine ⟨?_, rfl⟩
  simp only [get_sector_data, h2, h3, hf]
  rfl

/-- C6 witness: concrete instance of `C6_empty_sector`. -/
theorem C6_empty_sector_wit :
    get_sector_data "S" [⟨"A", "N", "T1"⟩] []
      (fun _ => .error (.providerFault "x")) = .ok emptyCanon ∧
    emptyCanon.cols = canonCols :=
  C6_empty_sector "S" [⟨"A", "N", "T1"⟩] [] _ (by decide) rfl rfl

/-- Membership in the cache-reader output comes from a workbook sheet whose
column set contains all canonical columns. -/
theorem includeSheets_mem {sheets res : List (String × Table)}
    (h : includeSheets sheets = .ok res) :
    ∀ nm df2, (nm, df2) ∈ res → ∃ df, (nm, df) ∈ sheets ∧
      (canonCols.all (fun c => c ∈ df.cols)) = true := by
  induction sheets generalizing res with
  | nil =>
    cases h
    intro nm df2 hmem
    simp at hmem
  | cons p rest ih =>
    obtain ⟨nm0, df0⟩ := p
    by_cases hc : (canonCols.all (fun c => c ∈ df0.cols)) = true
    · simp only [includeSheets, if_pos hc] at h
      obtain ⟨df2b, hm, h⟩ := bindE_eq_ok h
      obtain ⟨tl, hrest, h⟩ := bindE_eq_ok h
      simp only [Except.ok.injEq] at h
      subst h
      intro nm df2 hmem
      rcases List.mem_cons.mp hmem with he | ht
      · obtain ⟨h1, h2⟩ := Prod.mk.injEq .. ▸ he
        exact ⟨df0, by simp [h1], hc⟩
      · obtain ⟨df, hd, hall⟩ := ih hrest nm df2 ht
        exact ⟨df, List.mem_cons_of_mem _ hd, hall⟩
    · simp only [includeSheets, if_neg hc] at h
      intro nm df2 hmem
      obtain ⟨df, hd, hall⟩ := ih h nm df2 hmem
      exact ⟨df, List.mem_cons_of_mem _ hd, hall⟩

/-- C5: a missing cache artifact yields an empty mapping rather than an
error; and a sheet is included in the mapping only if its column set is a
superset of the canonical ticker/name/date/revenue columns. -/
theorem C5_cache_reader :
    (load_excel_dashboard none = .ok []) ∧
    (∀ sheets res, load_excel_dashboard (some sheets) = .ok res →
      ∀ nm df2, (nm, df2) ∈ res →
        ∃ df, (nm, df) ∈ sheets ∧ ∀ c ∈ canonCols, c ∈ df.cols) := by
  refine ⟨rfl, ?_⟩
  intro sheets res h nm df2 hmem
  obtain ⟨df, hd, hall⟩ := includeSheets_mem h nm df2 hmem
  refine ⟨df, hd, ?_⟩
  intro c hcm
  have := List.all_eq_true.mp hall c hcm
  simpa using this

/-- C5 witness: concrete instance of `C5_cache_reader`. -/
theorem C5_cache_reader_wit :
    ∃ df, ("s", df) ∈ [("s", sheetW)] ∧ ∀ c ∈ canonCols, c ∈ df.cols :=
  C5_cache_reader.2 [("s", sheetW)] [("s", sheetW)] (by rfl) "s" sheetW (by simp)

/-- C4: the registry loader fails with SchemaError when any of the
normalized ticker/name/sector columns is absent; when all three are
present it returns one entry per data row, all three fields being the
stripped string cells of that row. -/
theorem C4_registry_loader (csv : Csv) :
    (¬ ("ticker" ∈ normalizeCols csv.header ∧ "name" ∈ normalizeCols csv.header ∧
        "sector" ∈ normalizeCols csv.header) →
      ∃ m, load_groups csv = .error (.schemaError m) ∧ m ≠ []) ∧
    (("ticker" ∈ normalizeCols csv.header ∧ "name" ∈ normalizeCols csv.header ∧
        "sector" ∈ normalizeCols csv.header) →
      load_groups csv = .ok (csv.rows.map (fun r =>
        { ticker := pyStrip (csvCell (normalizeCols csv.header) r "ticker")
          sector := pyStrip (csvCell (normalizeCols csv.header) r "sector")
          name := pyStrip (csvCell (normalizeCols csv.header) r "name") })) ∧
      ∀ l, load_groups csv = .ok l → l.length = csv.rows.length) := by
  constructor
  · intro h
    have hm : ["ticker", "name", "sector"].filter
        (fun c => ¬ c ∈ normalizeCols csv.header) ≠ [] := by
      intro he
      rw [List.filter_eq_nil_iff] at he
      apply h
      refine ⟨?_, ?_, ?_⟩
      · simpa using he "ticker" (by simp)
      · simpa using he "name" (by simp)
      · simpa using he "sector" (by simp)
    refine ⟨_, ?_, hm⟩
    simp only [load_groups]
    rw [if_neg hm]
  · intro h
    have hm : ["ticker", "name", "sector"].filter
        (fun c => ¬ c ∈ normalizeCols csv.header) = [] := by
      rw [List.filter_eq_nil_iff]
      intro a ha
      simp only [List.mem_cons, List.not_mem_nil, or_false] at ha
      rcases ha with h1 | h1 | h1 <;> subst h1 <;> simp [h.1, h.2.1, h.2.2]
    constructor
    · simp only [load_groups]
      rw [if_pos hm]
    · intro l hl
      simp only [load_groups] at hl
      rw [if_pos hm] at hl
      simp only [Except.ok.injEq] at hl
      subst hl
      simp

/-- C4 witness: concrete instances of both branches of
`C4_registry_loader`. -/
theorem C4_registry_loader_wit :
    (load_groups csvGood = .ok [⟨"2330", "tsmc", "semi"⟩]) ∧
    (∃ m, load_groups csvBad = .error (.schemaError m) ∧ m ≠ []) := by
  constructor
  · have h := (C4_registry_loader csvGood).2 (by decide)
    exact h.1.trans (by rfl)
  · exact (C4_registry_loader csvBad).1 (by decide)

/-- Projection of the seen-rows state actually used by `pct_change`. -/
theorem grpPrevRevs_eq_proj (s : List KRow) (t : String) :
    grpPrevRevs s t = ((s.map (fun r => (r.ticker, r.revenue))).filter
      (fun p => p.1 = t)).map (fun p => p.2) := by
  induction s with
  | nil => rfl
  | cons r s ih =>
    by_cases h : r.ticker = t
    · simp only [grpPrevRevs, List.map_cons, List.filter_cons] at *
      simp [h]
      exact ih
    · simp only [grpPrevRevs, List.map_cons, List.filter_cons] at *
      simp [h]
      exact ih

theorem enrichGo_seen_congr : ∀ (l s₁ s₂ : List KRow),
    s₁.map (fun r => (r.ticker, r.revenue)) = s₂.map (fun r => (r.ticker, r.revenue)) →
    enrichGo s₁ l = enrichGo s₂ l
  | [], _, _, _ => rfl
  | r :: rs, s₁, s₂, h => by
    have hg : grpPrevRevs s₁ r.ticker = grpPrevRevs s₂ r.ticker := by
      rw [grpPrevRevs_eq_proj, grpPrevRevs_eq_proj, h]
    simp only [enrichGo, hg]
    congr 1
    exact enrichGo_seen_congr rs (s₁ ++ [r]) (s₂ ++ [r]) (by simp [h])

theorem enrichGo_enrichGo : ∀ (l s₁ s₂ : List KRow),
    enrichGo s₂ (enrichGo s₁ l) = enrichGo s₂ l := by
  intro l
  induction l with
  | nil => intro s₁ s₂; rfl
  | cons r rs ih =>
    intro s₁ s₂
    obtain ⟨t, n, d, v, m, y⟩ := r
    simp only [enrichGo]
    congr 1
    calc enrichGo (s₂ ++ [⟨t, n, d, v,
            pctK (grpPrevRevs s₁ t) v 1, pctK (grpPrevRevs s₁ t) v 12⟩])
          (enrichGo (s₁ ++ [⟨t, n, d, v, m, y⟩]) rs)
        = enrichGo (s₂ ++ [⟨t, n, d, v,
            pctK (grpPrevRevs s₁ t) v 1, pctK (grpPrevRevs s₁ t) v 12⟩]) rs := ih _ _
      _ = enrichGo (s₂ ++ [⟨t, n, d, v, m, y⟩]) rs :=
          enrichGo_seen_congr rs _ _ (by simp)

theorem enrichGo_map_key (seen l) : (enrichGo seen l).map KRow.key = l.map KRow.key := by
  induction l generalizing seen with
  | nil => rfl
  | cons r rs ih =>
    simp only [enrichGo, List.map_cons, ih]
    rfl

theorem enrichGo_length (seen l) : (enrichGo seen l).length = l.length := by
  induction l generalizing seen with
  | nil => rfl
  | cons r rs ih => simp only [enrichGo, List.length_cons, ih]

theorem sorted_krow_iff (l : List KRow) :
    List.Pairwise (fun a b => krowLeB a b = true) l ↔
    List.Pairwise (fun p q => tdLeB p q = true) (l.map KRow.key) := by
  rw [List.pairwise_map]
  simp only [krowLeB]

theorem C8_enrich_idempotent (df : List KRow) :
    enrich_kpi (enrich_kpi df) = enrich_kpi df := by
  by_cases h : df = []
  · subst h; rfl
  · have hr : enrich_kpi df
        = enrichGo [] (df.insertionSort (fun a b => krowLeB a b = true)) := by
      simp [enrich_kpi, h]
    set s := df.insertionSort (fun a b => krowLeB a b = true) with hs
    have hslen : s.length = df.length := (List.perm_insertionSort _ df).length_eq
    have hne : enrichGo [] s ≠ [] := by
      intro he
      have h2 := enrichGo_length [] s
      rw [he] at h2
      simp at h2
      apply h
      apply List.length_eq_zero.mp
      omega
    haveI : IsTotal KRow (fun a b => krowLeB a b = true) :=
      ⟨fun a b => tdLeB_total a.key b.key⟩
    haveI : IsTrans KRow (fun a b => krowLeB a b = true) :=
      ⟨fun a b c h1 h2 => tdLeB_trans h1 h2⟩
    have hsorted : List.Sorted (fun a b => krowLeB a b = true) s :=
      List.sorted_insertionSort _ df
    have hsorted_e : List.Sorted (fun a b => krowLeB a b = true) (enrichGo [] s) := by
      have h1 := (sorted_krow_iff s).mp hsorted
      rw [← enrichGo_map_key [] s] at h1
      exact (sorted_krow_iff _).mpr h1
    have hstep : enrich_kpi (enrichGo [] s)
        = enrichGo [] ((enrichGo [] s).insertionSort (fun a b => krowLeB a b = true)) := by
      simp only [enrich_kpi]
      rw [if_neg hne]
    rw [hr, hstep, List.Sorted.insertionSort_eq hsorted_e]
    exact enrichGo_enrichGo s [] []

theorem grpPrevRevs_append_same {r : KRow} {t : String} (seen : List KRow)
    (h : r.ticker = t) :
    grpPrevRevs (seen ++ [r]) t = grpPrevRevs seen t ++ [r.revenue] := by
  simp [grpPrevRevs, List.filter_append, h]

theorem grpPrevRevs_append_other {r : KRow} {t : String} (seen : List KRow)
    (h : ¬ r.ticker = t) :
    grpPrevRevs (seen ++ [r]) t = grpPrevRevs seen t := by
  simp [grpPrevRevs, List.filter_append, h]

theorem enrichGo_filter_spec : ∀ (l seen : List KRow) (t : String),
    ((enrichGo seen l).filter (fun r => r.ticker = t)).map
        (fun r => (r.revenue_mom, r.revenue_yoy))
      = momYoySpec (grpPrevRevs seen t)
          ((l.filter (fun r => r.ticker = t)).map (fun r => r.revenue))
  | [], _, _ => rfl
  | r :: rs, seen, t => by
    by_cases h : r.ticker = t
    · simp only [enrichGo, List.filter_cons, h, decide_True, if_true, List.map_cons,
        momYoySpec]
      rw [enrichGo_filter_spec rs (seen ++ [r]) t, grpPrevRevs_append_same seen h]
    · simp only [enrichGo, List.filter_cons, h, decide_False, Bool.false_eq_true,
        if_false, List.map_cons]
      rw [enrichGo_filter_spec rs (seen ++ [r]) t, grpPrevRevs_append_other seen h]

theorem enrichGo_filter_revenue : ∀ (l seen : List KRow) (t : String),
    ((enrichGo seen l).filter (fun r => r.ticker = t)).map (fun r => r.revenue)
      = (l.filter (fun r => r.ticker = t)).map (fun r => r.revenue)
  | [], _, _ => rfl
  | r :: rs, seen, t => by
    by_cases h : r.ticker = t
    · simp only [enrichGo, List.filter_cons, h, decide_True, if_true, List.map_cons]
      rw [enrichGo_filter_revenue rs (seen ++ [r]) t]
    · simp only [enrichGo, List.filter_cons, h, decide_False, Bool.false_eq_true, if_false]
      rw [enrichGo_filter_revenue rs (seen ++ [r]) t]

theorem momYoySpec_get? : ∀ (revs : List (Option ℚ)) (pref : List (Option ℚ)) (p : ℕ),
    p < revs.length →
    (momYoySpec pref revs).get? p
      = some (pctK (pref ++ revs.take p) (revs.getD p none) 1,
              pctK (pref ++ revs.take p) (revs.getD p none) 12)
  | [], _, p, hp => absurd hp (by simp)
  | v :: vs, pref, 0, _ => by simp [momYoySpec, List.getD]
  | v :: vs, pref, p + 1, hp => by
    simp only [momYoySpec, List.get?, List.take, List.getD_cons_succ]
    rw [momYoySpec_get? vs (pref ++ [v]) p (by simpa using hp)]
    simp [List.append_assoc]

theorem take_reverse_get? (revs : List (Option ℚ)) (p k : ℕ)
    (hp : p ≤ revs.length) (hk : 1 ≤ k) :
    ((revs.take p).reverse.get? (k - 1))
      = if k ≤ p then revs.get? (p - k) else none := by
  have hlen : (revs.take p).length = p := by
    simp [List.length_take, Nat.min_eq_left hp]
  by_cases h : k ≤ p
  · rw [if_pos h]
    have h1 : k - 1 < (revs.take p).reverse.length := by
      simp [hlen]; omega
    rw [List.get?_eq_getElem?, List.getElem?_reverse (by omega : k - 1 < (revs.take p).length)]
    rw [hlen]
    have h2 : p - 1 - (k - 1) = p - k := by omega
    rw [h2, List.getElem?_take_of_lt (by omega : p - k < p), List.get?_eq_getElem?]
  · rw [if_neg h]
    apply List.get?_eq_none.mpr
    simp [hlen]
    omega

theorem pctK_take (revs : List (Option ℚ)) (cur : Option ℚ) (p k : ℕ)
    (hp : p ≤ revs.length) (hk : 1 ≤ k) :
    pctK (revs.take p) cur k
      = if k ≤ p then pctVal cur (revs.getD (p - k) none) else FVal.nan := by
  unfold pctK
  rw [take_reverse_get? revs p k hp hk]
  by_cases h : k ≤ p
  · rw [if_pos h, if_pos h]
    have hlt : p - k < revs.length := by omega
    rw [List.getD_eq_getElem?_getD, ← List.get?_eq_getElem?]
    cases hg : revs.get? (p - k) with
    | none => exact absurd hg (by rw [List.get?_eq_getElem?]; simp [List.getElem?_eq_some_iff]; omega)
    | some x => simp
  · rw [if_neg h, if_neg h]


theorem get?_eq_some_getD {α : Type} (l : List α) (d : α) (p : ℕ) (h : p < l.length) :
    l.get? p = some (l.getD p d) := by
  rw [List.getD_eq_getElem?_getD, List.get?_eq_getElem?]
  cases hg : l[p]? with
  | none =>
    rw [List.getElem?_eq_none_iff] at hg
    omega
  | some x => simp

theorem getD_rev_map (seq : List KRow) (p : ℕ) (h : p < seq.length) :
    (seq.map (fun r => r.revenue)).getD p none = (seq.getD p default).revenue := by
  have h1 := get?_eq_some_getD seq default p h
  have h2 := get?_eq_some_getD (seq.map (fun r => r.revenue)) none p (by simpa using h)
  rw [List.get?_map, h1] at h2
  simpa using h2.symm

theorem enrich_kpi_sorted (df : List KRow) :
    List.Sorted (fun a b => krowLeB a b = true) (enrich_kpi df) := by
  by_cases h : df = []
  · subst h
    simp [enrich_kpi]
  · haveI : IsTotal KRow (fun a b => krowLeB a b = true) :=
      ⟨fun a b => tdLeB_total a.key b.key⟩
    haveI : IsTrans KRow (fun a b => krowLeB a b = true) :=
      ⟨fun a b c h1 h2 => tdLeB_trans h1 h2⟩
    have hsorted : List.Sorted (fun a b => krowLeB a b = true)
        (df.insertionSort (fun a b => krowLeB a b = true)) :=
      List.sorted_insertionSort _ df
    have h1 := (sorted_krow_iff _).mp hsorted
    rw [← enrichGo_map_key [] (df.insertionSort (fun a b => krowLeB a b = true))] at h1
    have h2 := (sorted_krow_iff _).mpr h1
    simpa [enrich_kpi, h] using h2

theorem enrich_kpi_filter_spec (df : List KRow) (t : String) :
    ((enrich_kpi df).filter (fun r => r.ticker = t)).map
        (fun r => (r.revenue_mom, r.revenue_yoy))
      = momYoySpec []
          (((enrich_kpi df).filter (fun r => r.ticker = t)).map (fun r => r.revenue)) := by
  by_cases h : df = []
  · subst h; rfl
  · have he : enrich_kpi df
        = enrichGo [] (df.insertionSort (fun a b => krowLeB a b = true)) := by
      simp [enrich_kpi, h]
    rw [he, enrichGo_filter_spec, enrichGo_filter_revenue]
    rfl

/-- C3 (amended): within the enriched table, each ticker's rows form a
date-sorted subsequence along which `revenue_mom` at group position p is
`pctVal` of the revenue at p against the revenue at p-1 (null at p = 0) and
`revenue_yoy` compares against position p-12 (null for p < 12); `pctVal`
propagates a null operand as null and never raises.  (A zero denominator
yields a signed infinity, see the counterexample.) -/
theorem C3_kpi_positional (df : List KRow) (t : String) (p : ℕ)
    (hp : p < ((enrich_kpi df).filter (fun r => r.ticker = t)).length) :
    ((((enrich_kpi df).filter (fun r => r.ticker = t)).getD p default).revenue_mom
      = if p = 0 then FVal.nan
        else pctVal ((((enrich_kpi df).filter (fun r => r.ticker = t)).getD p default).revenue)
          ((((enrich_kpi df).filter (fun r => r.ticker = t)).getD (p - 1) default).revenue)) ∧
    ((((enrich_kpi df).filter (fun r => r.ticker = t)).getD p default).revenue_yoy
      = if p < 12 then FVal.nan
        else pctVal ((((enrich_kpi df).filter (fun r => r.ticker = t)).getD p default).revenue)
          ((((enrich_kpi df).filter (fun r => r.ticker = t)).getD (p - 12) default).revenue)) ∧
    List.Sorted (fun a b => a.date ≤ b.date)
      ((enrich_kpi df).filter (fun r => r.ticker = t)) ∧
    (∀ a, pctVal a none = FVal.nan) ∧ (∀ b, pctVal none b = FVal.nan) := by
  set seq := (enrich_kpi df).filter (fun r => r.ticker = t) with hseq
  have hrl : (seq.map (fun r => r.revenue)).length = seq.length := by simp
  have hmap := enrich_kpi_filter_spec df t
  rw [← hseq] at hmap
  have hms := momYoySpec_get? (seq.map (fun r => r.revenue)) [] p (by omega)
  have hg1 := get?_eq_some_getD seq default p hp
  have hg2 : (seq.map (fun r => (r.revenue_mom, r.revenue_yoy))).get? p
      = some ((seq.getD p default).revenue_mom, (seq.getD p default).revenue_yoy) := by
    rw [List.get?_map, hg1]
    rfl
  rw [hmap, hms] at hg2
  simp only [List.nil_append, Option.some.injEq, Prod.mk.injEq] at hg2
  obtain ⟨hmom, hyoy⟩ := hg2
  have hcur : ((seq.map (fun r => r.revenue)).getD p none) = (seq.getD p default).revenue :=
    getD_rev_map seq p hp
  refine ⟨?_, ?_, ?_, ?_, ?_⟩
  · rw [← hmom, pctK_take _ _ _ _ (by omega) (by omega), hcur]
    by_cases h0 : p = 0
    · simp [h0]
    · rw [if_pos (by omega : 1 ≤ p), if_neg h0]
      rw [getD_rev_map seq (p - 1) (by omega)]
  · rw [← hyoy, pctK_take _ _ _ _ (by omega) (by omega), hcur]
    by_cases h0 : p < 12
    · rw [if_neg (by omega : ¬ 12 ≤ p), if_pos h0]
    · rw [if_pos (by omega : 12 ≤ p), if_neg h0]
      rw [getD_rev_map seq (p - 12) (by omega)]
  · have hs := enrich_kpi_sorted df
    have hsub : List.Pairwise (fun a b => krowLeB a b = true) seq :=
      List.Pairwise.sublist (List.filter_sublist _) hs
    refine List.Pairwise.imp_of_mem ?_ hsub
    intro a b ha hb hab
    have hta : a.ticker = t := by
      have := (List.mem_filter.mp ha).2
      simpa using this
    have htb : b.ticker = t := by
      have := (List.mem_filter.mp hb).2
      simpa using this
    unfold krowLeB tdLeB at hab
    simp only [KRow.key] at hab
    rw [hta, htb, if_pos rfl] at hab
    simpa using hab
  · intro a
    cases a <;> rfl
  · intro b
    rfl


/-- C3 witness: concrete instance of `C3_kpi_positional`. -/
theorem C3_kpi_positional_wit :
    1 < ((enrich_kpi c3df).filter (fun r => r.ticker = "A")).length ∧
    (((enrich_kpi c3df).filter (fun r => r.ticker = "A")).getD 1 default).revenue_mom
      = pctVal (some 100) (some 0) := by
  refine ⟨by decide, ?_⟩
  have h := (C3_kpi_positional c3df "A" 1 (by decide)).1
  rw [h]
  rfl

theorem mem_indexOf? {c : String} : ∀ {l : List String}, c ∈ l →
    ∃ i, List.indexOf? c l = some i ∧ l.get? i = some c := by
  intro l
  induction l with
  | nil => intro h; simp at h
  | cons a as ih =>
    intro h
    by_cases hc : (a == c) = true
    · have he : a = c := by simpa using hc
      refine ⟨0, ?_, by simp [he]⟩
      rw [List.indexOf?_cons, if_pos hc]
    · have hmem : c ∈ as := by
        rcases List.mem_cons.mp h with h1 | h1
        · exact absurd (by simp [h1]) hc
        · exact h1
      obtain ⟨i, hi, hg⟩ := ih hmem
      refine ⟨i + 1, ?_, by simpa using hg⟩
      rw [List.indexOf?_cons, if_neg hc, hi]
      rfl

theorem setSelf : ∀ (r : List Cell) (i : ℕ), r.set i (cellAt r i) = r := by
  intro r
  induction r with
  | nil => intro i; rfl
  | cons c cs ih =>
    intro i
    cases i with
    | zero => rfl
    | succ n =>
      show c :: cs.set n (cellAt cs n) = c :: cs
      rw [ih n]

theorem mapM_ok_id {α : Type} {l : List α} {g : α → Except PyErr α}
    (h : ∀ r ∈ l, g r = .ok r) : l.mapM g = .ok l := by
  induction l with
  | nil => rfl
  | cons r rs ih =>
    rw [List.mapM_cons, bindE_ok (h r (by simp))]
    rw [bindE_ok (ih (fun x hx => h x (by simp [hx])))]
    rfl

theorem mapM_ok_forall₂ {α β : Type} {g : α → Except PyErr β} :
    ∀ {l : List α} {l2 : List β}, l.mapM g = .ok l2 →
      List.Forall₂ (fun a b => g a = .ok b) l l2 := by
  intro l
  induction l with
  | nil =>
    intro l2 h
    simp only [List.mapM_nil] at h
    cases h
    exact .nil
  | cons a as ih =>
    intro l2 h
    rw [List.mapM_cons] at h
    obtain ⟨b, hb, h⟩ := bindE_eq_ok h
    obtain ⟨bs, hbs, h⟩ := bindE_eq_ok h
    cases h
    exact .cons hb (ih hbs)

theorem mapColM_id {t : Table} {c : String} {i : ℕ} {f : Cell → Except PyErr Cell}
    (hi : List.indexOf? c t.cols = some i)
    (hf : ∀ r ∈ t.rows, f (cellAt r i) = .ok (cellAt r i)) :
    mapColM t c f = .ok t := by
  simp only [mapColM, hi]
  have hm : t.rows.mapM (fun r => do
      let v ← f (cellAt r i)
      pure (r.set i v)) = .ok t.rows := by
    apply mapM_ok_id
    intro r hr
    rw [bindE_ok (hf r hr)]
    show Except.ok (r.set i (cellAt r i)) = .ok r
    rw [setSelf]
  rw [bindE_ok hm]
  rfl

theorem addMissing_mono : ∀ (cs : List String) (t : Table) (x : String),
    x ∈ t.cols → x ∈ (addMissingCols t cs).cols := by
  intro cs
  induction cs with
  | nil => intro t x h; exact h
  | cons c cs ih =>
    intro t x h
    simp only [addMissingCols]
    by_cases hc : c ∈ t.cols
    · rw [if_pos hc]; exact ih t x h
    · rw [if_neg hc]
      exact ih _ x (by simp [h])

theorem addMissing_mem : ∀ (cs : List String) (t : Table) (c : String),
    c ∈ cs → c ∈ (addMissingCols t cs).cols := by
  intro cs
  induction cs with
  | nil => intro t c h; simp at h
  | cons a as ih =>
    intro t c h
    simp only [addMissingCols]
    rcases List.mem_cons.mp h with h1 | h1
    · subst h1
      by_cases hc : c ∈ t.cols
      · rw [if_pos hc]; exact addMissing_mono as t c hc
      · rw [if_neg hc]
        exact addMissing_mono as _ c (by simp)
    · by_cases hc : a ∈ t.cols
      · rw [if_pos hc]; exact ih t c h1
      · rw [if_neg hc]; exact ih _ c h1

theorem addMissing_rows_len : ∀ (cs : List String) (t : Table),
    (addMissingCols t cs).rows.length = t.rows.length := by
  intro cs
  induction cs with
  | nil => intro t; rfl
  | cons c cs ih =>
    intro t
    simp only [addMissingCols]
    by_cases hc : c ∈ t.cols
    · rw [if_pos hc]; exact ih t
    · rw [if_neg hc]
      rw [ih _]
      simp

theorem selectCols_ok {t : Table} {cs : List String}
    (h : cs.all (fun c => decide (c ∈ t.cols)) = true) :
    selectCols t cs = .ok ⟨cs, t.rows.map (fun r =>
      cs.map (fun c => cellAt r ((List.indexOf? c t.cols).getD 0)))⟩ := by
  simp only [selectCols]
  rw [if_pos h]

theorem sortRowsByDate_ok {t : Table} {i : ℕ}
    (hi : List.indexOf? "date" t.cols = some i) :
    ∃ u, sortRowsByDate t = .ok u ∧ u.cols = t.cols ∧
      u.rows.Perm t.rows ∧
      List.Pairwise (fun a b => Cell.leB (cellAt a i) (cellAt b i) = true) u.rows := by
  simp only [sortRowsByDate, hi]
  haveI : IsTotal (List Cell) (fun a b => Cell.leB (cellAt a i) (cellAt b i) = true) :=
    ⟨fun a b => cellLeB_total _ _⟩
  haveI : IsTrans (List Cell) (fun a b => Cell.leB (cellAt a i) (cellAt b i) = true) :=
    ⟨fun a b c h1 h2 => cellLeB_trans h1 h2⟩
  exact ⟨_, rfl, rfl, List.perm_insertionSort _ _, List.sorted_insertionSort _ _⟩

theorem sortRowsByTickerDate_ok {t : Table} {ti di : ℕ}
    (hti : List.indexOf? "ticker" t.cols = some ti)
    (hdi : List.indexOf? "date" t.cols = some di) :
    ∃ u, sortRowsByTickerDate t = .ok u ∧ u.cols = t.cols ∧
      u.rows.Perm t.rows ∧
      List.Pairwise (fun a b => rowLeB ti di a b = true) u.rows := by
  simp only [sortRowsByTickerDate, hti, hdi]
  haveI : IsTotal (List Cell) (fun a b => rowLeB ti di a b = true) :=
    ⟨fun a b => keyPairLeB_total _ _⟩
  haveI : IsTrans (List Cell) (fun a b => rowLeB ti di a b = true) :=
    ⟨fun a b c h1 h2 => keyPairLeB_trans h1 h2⟩
  exact ⟨_, rfl, rfl, List.perm_insertionSort _ _, List.sorted_insertionSort _ _⟩


theorem cellAt_set_ne {r : List Cell} {i j : ℕ} {x : Cell} (h : i ≠ j) :
    cellAt (r.set i x) j = cellAt r j := by
  simp only [cellAt, List.getD_eq_getElem?_getD]
  rw [List.getElem?_set_ne h]

theorem setColWith_rows_len (t : Table) (c : String) (f : List Cell → Cell) :
    (setColWith t c f).rows.length = t.rows.length := by
  simp only [setColWith]
  cases List.indexOf? c t.cols <;> simp

theorem selectSort_pipeline (t : Table) :
    ∃ out, (selectCols (addMissingCols t canonCols) canonCols >>=
        fun o => sortRowsByDate o) = .ok out ∧ out.cols = canonCols ∧
      List.Pairwise (fun a b => Cell.leB (cellAt a 2) (cellAt b 2) = true) out.rows ∧
      out.rows.length = t.rows.length := by
  have hall : canonCols.all (fun c => decide (c ∈ (addMissingCols t canonCols).cols)) = true := by
    rw [List.all_eq_true]
    intro c hc
    simp only [decide_eq_true_eq]
    exact addMissing_mem canonCols t c hc
  have hsel := selectCols_ok hall
  rw [bindE_ok hsel]
  have hdi : List.indexOf? "date"
      (⟨canonCols, ((addMissingCols t canonCols).rows.map (fun r =>
        canonCols.map (fun c => cellAt r ((List.indexOf? c (addMissingCols t canonCols).cols).getD 0))))⟩ : Table).cols
      = some 2 := by rfl
  obtain ⟨u, hu, hcols, hperm, hpw⟩ := sortRowsByDate_ok hdi
  refine ⟨u, hu, hcols, hpw, ?_⟩
  rw [hperm.length_eq]
  simp [addMissing_rows_len]


/-- C7 (amended): a provider returning zero rows yields the empty table
with the canonical columns, not an error; a non-empty provider frame whose
renamed columns include ticker and date (with date-typed or null date
cells) yields exactly the four canonical columns sorted ascending by date,
one output row per provider row; and a concrete frame missing both the
revenue and name columns has them added filled with null.  (A non-empty
frame missing ticker or date raises instead, see the counterexample.) -/
theorem C7_live_fetcher (groups : List Entry)
    (provider : String → ℤ → Except PyErr Table) (ticker : String) (years : ℕ) :
    (∀ tb, provider ticker epochStart = .ok tb → tb.rows = [] →
       fetch_monthly_revenue_finmind groups provider ticker years = .ok emptyCanon) ∧
    (∀ tb, provider ticker epochStart = .ok tb → tb.rows ≠ [] →
       "ticker" ∈ tb.cols.map finmindRename →
       "date" ∈ tb.cols.map finmindRename →
       (∀ r ∈ tb.rows,
          cellAt r ((List.indexOf? "date" (tb.cols.map finmindRename)).getD 0) = Cell.null ∨
          ∃ d, cellAt r ((List.indexOf? "date" (tb.cols.map finmindRename)).getD 0) = Cell.date d) →
       ∃ out, fetch_monthly_revenue_finmind groups provider ticker years = .ok out ∧
         out.cols = canonCols ∧
         List.Pairwise (fun a b => Cell.leB (cellAt a 2) (cellAt b 2) = true) out.rows ∧
         out.rows.length = tb.rows.length) ∧
    (fetch_monthly_revenue_finmind []
        (fun _ _ => .ok ⟨["stock_id", "date"], [[.str "T", .date 20240101]]⟩) "T" 3
      = .ok ⟨canonCols, [[.str "T", .null, .date 20240101, .null]]⟩) := by
  refine ⟨?_, ?_, by rfl⟩
  · intro tb hok he
    simp only [fetch_monthly_revenue_finmind]
    rw [bindE_ok hok, if_pos he]
  · intro tb hok hne hticker hdate hcells
    obtain ⟨ti, hti, hgti⟩ := mem_indexOf? hticker
    obtain ⟨di, hdi, hgdi⟩ := mem_indexOf? hdate
    have htine : ti ≠ di := by
      intro he
      rw [he, hgdi] at hgti
      simp at hgti
    simp only [fetch_monthly_revenue_finmind]
    rw [bindE_ok hok, if_neg hne]
    have hast : astypeStrCol (tb.renameCols finmindRename) "ticker"
        = .ok ⟨tb.cols.map finmindRename,
            tb.rows.map (fun r => r.set ti (.str (cellToStr (cellAt r ti))))⟩ := by
      simp only [astypeStrCol, Table.renameCols]
      rw [hti]
    rw [bindE_ok hast]
    have hmap : mapColM ⟨tb.cols.map finmindRename,
          tb.rows.map (fun r => r.set ti (.str (cellToStr (cellAt r ti))))⟩
          "date" toDateCell
        = .ok ⟨tb.cols.map finmindRename,
            tb.rows.map (fun r => r.set ti (.str (cellToStr (cellAt r ti))))⟩ := by
      apply mapColM_id (i := di) hdi
      intro r hr
      obtain ⟨orig, horig, hre⟩ := List.mem_map.mp hr
      subst hre
      rw [cellAt_set_ne htine]
      rcases hcells orig horig with h | ⟨d, h⟩
      · rw [hdi] at h
        simp only [Option.getD_some] at h
        rw [h]
        rfl
      · rw [hdi] at h
        simp only [Option.getD_some] at h
        rw [h]
        rfl
    rw [bindE_ok hmap]
    obtain ⟨out, hout, hcols, hpw, hlen⟩ := selectSort_pipeline
      (if ¬ ("name" ∈ (⟨tb.cols.map finmindRename,
            tb.rows.map (fun r => r.set ti (.str (cellToStr (cellAt r ti))))⟩ : Table).cols)
          ∨ isnaAll ⟨tb.cols.map finmindRename,
            tb.rows.map (fun r => r.set ti (.str (cellToStr (cellAt r ti))))⟩ "name" then
        setColWith ⟨tb.cols.map finmindRename,
            tb.rows.map (fun r => r.set ti (.str (cellToStr (cellAt r ti))))⟩ "name"
          (fun r => mapNameCell (nameMapLookup groups)
            (cellAt r ((List.indexOf? "ticker" (⟨tb.cols.map finmindRename,
              tb.rows.map (fun r => r.set ti (.str (cellToStr (cellAt r ti))))⟩ : Table).cols).getD 0)))
      else ⟨tb.cols.map finmindRename,
            tb.rows.map (fun r => r.set ti (.str (cellToStr (cellAt r ti))))⟩)
    refine ⟨out, hout, hcols, hpw, ?_⟩
    rw [hlen]
    by_cases hif : ¬ ("name" ∈ (⟨tb.cols.map finmindRename,
            tb.rows.map (fun r => r.set ti (.str (cellToStr (cellAt r ti))))⟩ : Table).cols)
          ∨ isnaAll ⟨tb.cols.map finmindRename,
            tb.rows.map (fun r => r.set ti (.str (cellToStr (cellAt r ti))))⟩ "name"
    · rw [if_pos hif, setColWith_rows_len]
      simp
    · rw [if_neg hif]
      simp


/-- C7 witness: concrete instance of `C7_live_fetcher`. -/
theorem C7_live_fetcher_wit :
    ∃ out, fetch_monthly_revenue_finmind gAB provC1 "B" 3 = .ok out ∧
      out.cols = canonCols ∧
      List.Pairwise (fun a b => Cell.leB (cellAt a 2) (cellAt b 2) = true) out.rows ∧
      out.rows.length = 1 := by
  have h := (C7_live_fetcher gAB provC1 "B" 3).2.1
    ⟨["stock_id", "stock_name", "date", "revenue"],
      [[.str "B", .str "NB", .date 20240101, .num 7]]⟩ rfl (by decide) (by decide) (by decide)
    (by
      intro r hr
      simp only [List.mem_singleton] at hr
      subst hr
      right
      exact ⟨20240101, rfl⟩)
  exact h

theorem reindexRow_id {t : Table} (ht : t.cols = canonCols) :
    ∀ {r : List Cell}, r.length = 4 → reindexRow t canonCols r = r := by
  intro r hr
  rcases r with _ | ⟨a, _ | ⟨b, _ | ⟨c, _ | ⟨d, _ | ⟨e, rest⟩⟩⟩⟩⟩ <;> simp at hr
  simp only [reindexRow, ht]
  rfl

/-- C1 (amended): in a two-ticker sector with no cache, a provider result
that is merely empty for ticker A does not abort resolution — A contributes
zero rows and ticker B's rows are all present (the resolved rows are a
permutation of B's rows). -/
theorem C1_empty_result_degrades (rows : List (List Cell))
    (hlen : ∀ r ∈ rows, r.length = 4)
    (hdate : ∀ r ∈ rows, cellAt r 2 ≠ Cell.null) :
    ∃ out, get_sector_data "S" gAB []
        (fun t => if t = "A" then .ok emptyCanon else .ok ⟨canonCols, rows⟩)
      = .ok out ∧ out.cols = canonCols ∧ out.rows.Perm rows := by
  have hstep : get_sector_data "S" gAB []
        (fun t => if t = "A" then .ok emptyCanon else .ok ⟨canonCols, rows⟩)
      = dropnaDate (concatTables [emptyCanon, ⟨canonCols, rows⟩]) >>=
          fun c => sortRowsByTickerDate c := rfl
  have hmap : rows.map (reindexRow (⟨canonCols, rows⟩ : Table) canonCols) = rows := by
    rw [List.map_congr_left (fun r hr => reindexRow_id rfl (hlen r hr))]
    exact List.map_id' rows
  have hconcat : concatTables [emptyCanon, (⟨canonCols, rows⟩ : Table)]
      = ⟨canonCols, rows⟩ := by
    have h0 : concatTables [emptyCanon, (⟨canonCols, rows⟩ : Table)]
        = ⟨canonCols, rows.map (reindexRow (⟨canonCols, rows⟩ : Table) canonCols) ++ []⟩ := rfl
    rw [h0, List.append_nil, hmap]
  have hfilter : rows.filter (fun r => cellAt r 2 ≠ Cell.null) = rows :=
    List.filter_eq_self.mpr (fun r hr => by simpa using hdate r hr)
  have hdrop : dropnaDate (⟨canonCols, rows⟩ : Table) = .ok ⟨canonCols, rows⟩ := by
    show Except.ok (⟨canonCols, rows.filter (fun r => cellAt r 2 ≠ Cell.null)⟩ : Table)
      = .ok ⟨canonCols, rows⟩
    rw [hfilter]
  rw [hstep, hconcat, bindE_ok hdrop]
  obtain ⟨u, hu, hcols, hperm, hpw⟩ :=
    sortRowsByTickerDate_ok (t := ⟨canonCols, rows⟩)
      (show List.indexOf? "ticker" canonCols = some 0 from rfl)
      (show List.indexOf? "date" canonCols = some 2 from rfl)
  exact ⟨u, hu, hcols, hperm⟩


/-- C1 witness: concrete instance of `C1_empty_result_degrades`. -/
theorem C1_empty_result_degrades_wit :
    ∃ out, get_sector_data "S" gAB []
        (fun t => if t = "A" then .ok emptyCanon
          else .ok ⟨canonCols, [[.str "B", .str "NB", .date 20240101, .num 7]]⟩)
      = .ok out ∧ out.cols = canonCols ∧
      out.rows.Perm [[.str "B", .str "NB", .date 20240101, .num 7]] :=
  C1_empty_result_degrades [[.str "B", .str "NB", .date 20240101, .num 7]]
    (by decide) (by decide)

theorem selectCols_eq_ok_inv {t : Table} {cs : List String} {u : Table}
    (h : selectCols t cs = .ok u) :
    u.cols = cs ∧ u.rows.length = t.rows.length ∧ ∀ r ∈ u.rows, r.length = cs.length := by
  simp only [selectCols] at h
  by_cases hc : cs.all (fun c => decide (c ∈ t.cols)) = true
  · rw [if_pos hc] at h
    cases h
    refine ⟨rfl, by simp, ?_⟩
    intro r hr
    obtain ⟨orig, _, hre⟩ := List.mem_map.mp hr
    subst hre
    simp
  · rw [if_neg hc] at h
    cases h

theorem batchNormalize_shape {dict : String → Option String} {tb nt : Table}
    (h : batchNormalize dict tb = .ok nt) :
    nt.cols = canonCols ∧ nt.rows.length = tb.rows.length ∧
    ∀ r ∈ nt.rows, r.length = 4 := by
  simp only [batchNormalize] at h
  obtain ⟨s1, hs1, h⟩ := bindE_eq_ok h
  have hs1shape : s1.rows.length = tb.rows.length := by
    simp only [astypeStrCol] at hs1
    cases hidx : List.indexOf? "ticker" (tb.renameCols finmindRename).cols with
    | none => rw [hidx] at hs1; cases hs1
    | some i =>
      rw [hidx] at hs1
      cases hs1
      simp [Table.renameCols]
  set s2 := if ¬ ("name" ∈ s1.cols) ∨ isnaAll s1 "name" then
      setColWith s1 "name"
        (fun r => mapNameCell dict (cellAt r ((List.indexOf? "ticker" s1.cols).getD 0)))
    else s1 with hs2
  have hs2len : s2.rows.length = s1.rows.length := by
    rw [hs2]
    by_cases hif : ¬ ("name" ∈ s1.cols) ∨ isnaAll s1 "name"
    · rw [if_pos hif, setColWith_rows_len]
    · rw [if_neg hif]
  obtain ⟨hcols, hlen, hrows⟩ := selectCols_eq_ok_inv h
  exact ⟨hcols, by omega, fun r hr => hrows r hr⟩


theorem unionCols_aux_canon : ∀ (frames : List Table),
    (∀ f ∈ frames, f.cols = canonCols) →
    frames.foldl (fun acc t =>
      t.cols.foldl (fun a c => if c ∈ a then a else a ++ [c]) acc) canonCols
      = canonCols := by
  intro frames
  induction frames with
  | nil => intro _; rfl
  | cons f fs ih =>
    intro h
    simp only [List.foldl_cons]
    rw [h f (by simp)]
    exact ih (fun g hg => h g (by simp [hg]))

theorem unionCols_canon : ∀ (frames : List Table), frames ≠ [] →
    (∀ f ∈ frames, f.cols = canonCols) → unionCols frames = canonCols := by
  intro frames hne h
  cases frames with
  | nil => exact absurd rfl hne
  | cons f fs =>
    simp only [unionCols, List.foldl_cons]
    rw [h f (by simp)]
    have h0 : canonCols.foldl (fun a c => if c ∈ a then a else a ++ [c]) [] = canonCols := rfl
    rw [h0]
    exact unionCols_aux_canon fs (fun g hg => h g (by simp [hg]))

theorem concat_all_canon {frames : List Table} (hne : frames ≠ [])
    (h : ∀ f ∈ frames, f.cols = canonCols ∧ ∀ r ∈ f.rows, r.length = 4) :
    concatTables frames = ⟨canonCols, (frames.map Table.rows).flatten⟩ := by
  have hu : unionCols frames = canonCols :=
    unionCols_canon frames hne (fun f hf => (h f hf).1)
  simp only [concatTables, hu]
  congr 1
  congr 1
  apply List.map_congr_left
  intro f hf
  have := (h f hf).1
  rw [List.map_congr_left (fun r hr => reindexRow_id this ((h f hf).2 r hr))]
  exact List.map_id' f.rows

theorem sectorFrames_spec (provider : String → ℤ → Except PyErr Table)
    (dict : String → Option String) (start : ℤ)
    (hp : ∀ t, ∃ tb, provider t start = .ok tb ∧
       (tb.rows ≠ [] → ∃ nt, batchNormalize dict tb = .ok nt ∧
          ∀ r ∈ nt.rows, cellAt r 2 = Cell.null ∨ ∃ d, cellAt r 2 = Cell.date d)) :
    ∀ ts : List String, ∃ frames, sectorFrames provider dict start ts = .ok frames ∧
      (frames = [] ↔ ∀ t ∈ ts, provNonempty provider start t = false) ∧
      (∀ f ∈ frames, (f.cols = canonCols ∧ ∀ r ∈ f.rows, r.length = 4) ∧
        ∀ r ∈ f.rows, cellAt r 2 = Cell.null ∨ ∃ d, cellAt r 2 = Cell.date d) := by
  intro ts
  induction ts with
  | nil =>
    refine ⟨[], rfl, by simp, by simp⟩
  | cons t ts ih =>
    obtain ⟨frames, hfr, hiff, hwf⟩ := ih
    obtain ⟨tb, hok, hnt⟩ := hp t
    have hpn : provNonempty provider start t = decide (tb.rows ≠ []) := by
      simp only [provNonempty, hok]
    by_cases htb : tb.rows = []
    · refine ⟨frames, ?_, ?_, hwf⟩
      · simp only [sectorFrames]
        rw [bindE_ok hok, if_pos htb]
        exact hfr
      · rw [hiff]
        constructor
        · intro h t2 ht2
          rcases List.mem_cons.mp ht2 with h1 | h1
          · subst h1; simp [hpn, htb]
          · exact h t2 h1
        · intro h t2 ht2
          exact h t2 (by simp [ht2])
    · obtain ⟨nt, hntok, hntdate⟩ := hnt htb
      refine ⟨nt :: frames, ?_, ?_, ?_⟩
      · simp only [sectorFrames]
        rw [bindE_ok hok, if_neg htb, bindE_ok hntok, bindE_ok hfr]
      · constructor
        · intro h; cases h
        · intro h
          have := h t (by simp)
          rw [hpn] at this
          simp [htb] at this
      · intro f hf
        rcases List.mem_cons.mp hf with h1 | h1
        · subst h1
          obtain ⟨hc, _, hl⟩ := batchNormalize_shape hntok
          exact ⟨⟨hc, hl⟩, hntdate⟩
        · exact hwf f h1


theorem buildSheets_spec (provider : String → ℤ → Except PyErr Table)
    (dict : String → Option String) (start : ℤ)
    (cols : List String) (rows : List (List String))
    (hp : ∀ t, ∃ tb, provider t start = .ok tb ∧
       (tb.rows ≠ [] → ∃ nt, batchNormalize dict tb = .ok nt ∧
          ∀ r ∈ nt.rows, cellAt r 2 = Cell.null ∨ ∃ d, cellAt r 2 = Cell.date d)) :
    ∀ sectors : List String, ∃ out,
      buildSheets provider dict start cols rows sectors = .ok out ∧
      out.map Prod.fst = sectors.filter
        (fun s => (sectorTickers cols rows s).any
          (fun t => provNonempty provider start t)) := by
  intro sectors
  induction sectors with
  | nil => exact ⟨[], rfl, rfl⟩
  | cons sector rest ih =>
    obtain ⟨tl, htl, hmap⟩ := ih
    obtain ⟨frames, hfr, hiff, hwf⟩ :=
      sectorFrames_spec provider dict start hp (sectorTickers cols rows sector)
    by_cases hfe : frames = []
    · refine ⟨tl, ?_, ?_⟩
      · simp only [buildSheets]
        rw [bindE_ok hfr, bindE_ok htl, if_pos hfe]
      · rw [hmap, List.filter_cons]
        have hany : (sectorTickers cols rows sector).any
            (fun t => provNonempty provider start t) = false := by
          rw [List.any_eq_false]
          intro t ht
          simp [hiff.mp hfe t ht]
        rw [hany]
        simp
    · have hconcat := concat_all_canon hfe (fun f hf => (hwf f hf).1)
      have hmapcol : mapColM (concatTables frames) "date" toDateCell
          = .ok (concatTables frames) := by
        rw [hconcat]
        apply mapColM_id (i := 2) (by rfl)
        intro r hr
        obtain ⟨l, hl, hrl⟩ := List.mem_flatten.mp hr
        obtain ⟨f, hf, hfl⟩ := List.mem_map.mp hl
        subst hfl
        rcases (hwf f hf).2 r hrl with h | ⟨d, h⟩ <;> rw [h] <;> rfl
      have hti : List.indexOf? "ticker" (concatTables frames).cols = some 0 := by
        rw [hconcat]
        rfl
      have hdi : List.indexOf? "date" (concatTables frames).cols = some 2 := by
        rw [hconcat]
        rfl
      obtain ⟨u, hu, hucols, hperm, hpw⟩ := sortRowsByTickerDate_ok hti hdi
      refine ⟨(sector, u) :: tl, ?_, ?_⟩
      · simp only [buildSheets]
        rw [bindE_ok hfr, bindE_ok htl, if_neg hfe, bindE_ok hmapcol, bindE_ok hu]
      · simp only [List.map_cons, hmap, List.filter_cons]
        have hany : (sectorTickers cols rows sector).any
            (fun t => provNonempty provider start t) = true := by
          rw [List.any_eq_true]
          by_contra hno
          apply hfe
          rw [hiff]
          intro t ht
          cases hb : provNonempty provider start t with
          | false => rfl
          | true => exact absurd ⟨t, ht, hb⟩ hno
        rw [hany]
        rfl

/-- C9 (amended): with a valid registry header and well-formed provider
results, `fetch_all` succeeds and produces exactly one sheet per sector
that has at least one ticker with a non-empty provider result, in sorted
sector order — sectors with no data get no sheet; and the batch entry
point exits non-zero precisely when `fetch_all` produced no sheets. -/
theorem C9_batch_sheets (csv : Csv) (provider : String → ℤ → Except PyErr Table)
    (years : ℕ) (today : ℤ)
    (hdr : ["ticker", "name", "sector"].filter
        (fun c => ¬ c ∈ normalizeCols csv.header) = [])
    (hprov : ∀ t, ∃ tb, provider t (batchStart today years) = .ok tb ∧
       (tb.rows ≠ [] → ∃ nt,
          batchNormalize (csvNameMap (normalizeCols csv.header) csv.rows) tb = .ok nt ∧
          ∀ r ∈ nt.rows, cellAt r 2 = Cell.null ∨ ∃ d, cellAt r 2 = Cell.date d)) :
    (∃ sheets, fetch_all csv provider years today = .ok sheets ∧
      sheets.map Prod.fst
        = ((dedupFirst (csv.rows.map (fun r =>
              csvCell (normalizeCols csv.header) r "sector"))).insertionSort
            (fun a b => charsLe a.data b.data = true)).filter
            (fun s => (sectorTickers (normalizeCols csv.header) csv.rows s).any
              (fun t => provNonempty provider (batchStart today years) t))) ∧
    (∀ sh, fetch_all csv provider 3 today = .ok sh →
      (batch_main csv provider today = .ok (1, []) ↔ sh = [])) := by
  constructor
  · obtain ⟨out, hout, hkeys⟩ := buildSheets_spec provider
      (csvNameMap (normalizeCols csv.header) csv.rows) (batchStart today years)
      (normalizeCols csv.header) csv.rows hprov
      ((dedupFirst (csv.rows.map (fun r =>
          csvCell (normalizeCols csv.header) r "sector"))).insertionSort
        (fun a b => charsLe a.data b.data = true))
    refine ⟨out, ?_, hkeys⟩
    simp only [fetch_all]
    rw [if_pos hdr]
    exact hout
  · intro sh hsh
    simp only [batch_main]
    rw [bindE_ok hsh]
    by_cases he : sh = []
    · rw [if_pos he]
      simp [he]
    · rw [if_neg he]
      constructor
      · intro hcon
        simp only [Except.ok.injEq, Prod.mk.injEq] at hcon
        exact absurd hcon.1 (by decide)
      · intro h
        exact absurd h he


/-- C9 witness: concrete instance of `C9_batch_sheets`. -/
theorem C9_batch_sheets_wit :
    ∃ sheets, fetch_all csv1 prov9 3 20251001 = .ok sheets ∧
      sheets.map Prod.fst = ["S1"] := by
  have hprov : ∀ t, ∃ tb, prov9 t (batchStart 20251001 3) = .ok tb ∧
      (tb.rows ≠ [] → ∃ nt,
        batchNormalize (csvNameMap (normalizeCols csv1.header) csv1.rows) tb = .ok nt ∧
        ∀ r ∈ nt.rows, cellAt r 2 = Cell.null ∨ ∃ d, cellAt r 2 = Cell.date d) := by
    intro t
    by_cases ht : t = "A"
    · subst ht
      refine ⟨⟨["stock_id", "stock_name", "date", "revenue"],
          [[.str "A", .str "NA", .date 20240101, .num 5]]⟩, rfl, ?_⟩
      intro _
      refine ⟨⟨canonCols, [[.str "A", .str "NA", .date 20240101, .num 5]]⟩, rfl, ?_⟩
      intro r hr
      simp only [List.mem_singleton] at hr
      subst hr
      right
      exact ⟨20240101, rfl⟩
    · refine ⟨⟨[], []⟩, ?_, ?_⟩
      · simp [prov9, ht]
      · intro hne
        exact absurd rfl hne
  obtain ⟨sheets, hok, hkeys⟩ := (C9_batch_sheets csv1 prov9 3 20251001 (by rfl) hprov).1
  refine ⟨sheets, hok, ?_⟩
  rw [hkeys]
  rfl


theorem dedupFirstAux_mem : ∀ (l : List String) (seen : List String) (x : String),
    x ∈ dedupFirstAux seen l → x ∉ seen := by
  intro l
  induction l with
  | nil => intro seen x h; simp [dedupFirstAux] at h
  | cons a as ih =>
    intro seen x h
    simp only [dedupFirstAux] at h
    by_cases ha : a ∈ seen
    · rw [if_pos ha] at h
      exact ih seen x h
    · rw [if_neg ha] at h
      rcases List.mem_cons.mp h with h1 | h1
      · subst h1; exact ha
      · intro hx
        exact ih (seen ++ [a]) x h1 (by simp [hx])

theorem dedupFirstAux_nodup : ∀ (l : List String) (seen : List String),
    (dedupFirstAux seen l).Nodup := by
  intro l
  induction l with
  | nil => intro seen; simp [dedupFirstAux]
  | cons a as ih =>
    intro seen
    simp only [dedupFirstAux]
    by_cases ha : a ∈ seen
    · rw [if_pos ha]; exact ih seen
    · rw [if_neg ha]
      refine List.nodup_cons.mpr ⟨?_, ih (seen ++ [a])⟩
      intro hmem
      exact dedupFirstAux_mem as (seen ++ [a]) a hmem (by simp)

theorem dedupFirst_nodup (l : List String) : (dedupFirst l).Nodup :=
  dedupFirstAux_nodup l []

theorem mapM_exists {α β : Type} {g : α → Except PyErr β} :
    ∀ {l : List α}, (∀ a ∈ l, ∃ b, g a = .ok b) →
      ∃ l2, l.mapM g = .ok l2 ∧ List.Forall₂ (fun a b => g a = .ok b) l l2 := by
  intro l
  induction l with
  | nil => intro _; exact ⟨[], rfl, .nil⟩
  | cons a as ih =>
    intro h
    obtain ⟨b, hb⟩ := h a (by simp)
    obtain ⟨bs, hbs, hf⟩ := ih (fun x hx => h x (by simp [hx]))
    refine ⟨b :: bs, ?_, .cons hb hf⟩
    rw [List.mapM_cons, bindE_ok hb, bindE_ok hbs]
    rfl

theorem mem_of_forall₂_right {α β : Type} {P : α → β → Prop} :
    ∀ {l1 : List α} {l2 : List β}, List.Forall₂ P l1 l2 →
      ∀ b ∈ l2, ∃ a ∈ l1, P a b := by
  intro l1 l2 hf
  induction hf with
  | nil => intro b hb; simp at hb
  | cons hab hrest ih =>
    intro b hb
    rcases List.mem_cons.mp hb with h1 | h1
    · subst h1
      exact ⟨_, by simp, hab⟩
    · obtain ⟨a, ha, hp⟩ := ih b h1
      exact ⟨a, by simp [ha], hp⟩

theorem forall₂_nodup_pairwise {P : String → Table → Prop} :
    ∀ {ts : List String} {fs : List Table}, List.Forall₂ P ts fs → ts.Nodup →
      List.Pairwise (fun f1 f2 => ∃ t1 t2, t1 ≠ t2 ∧ P t1 f1 ∧ P t2 f2) fs := by
  intro ts fs hf
  induction hf with
  | nil => intro _; exact .nil
  | cons hab hrest ih =>
    intro hnd
    obtain ⟨hna, hnd2⟩ := List.nodup_cons.mp hnd
    refine .cons ?_ (ih hnd2)
    intro f2 hf2
    obtain ⟨t2, ht2, hp2⟩ := mem_of_forall₂_right hrest f2 hf2
    refine ⟨_, t2, ?_, hab, hp2⟩
    intro he
    rw [he] at hna
    exact hna ht2

theorem dropnaDate_canon (R : List (List Cell)) :
    dropnaDate ⟨canonCols, R⟩
      = .ok ⟨canonCols, R.filter (fun r => cellAt r 2 ≠ Cell.null)⟩ := rfl


theorem resolveTail (fetch : String → Except PyErr Table)
    (tickers : List String) (cacheFrames : List Table) (haveCells : List Cell)
    (hT : tickers.Nodup)
    (hcwf : ∀ f ∈ cacheFrames, (f.cols = canonCols ∧ ∀ r ∈ f.rows, r.length = 4) ∧
       List.Pairwise (fun a b =>
         ¬ (cellAt a 0 = cellAt b 0 ∧ cellAt a 2 = cellAt b 2)) f.rows)
    (hcov : ∀ f ∈ cacheFrames, ∀ r ∈ f.rows, cellAt r 0 ∈ haveCells)
    (hone : cacheFrames.length ≤ 1)
    (hfetch : ∀ t, ∃ tb, fetch t = .ok tb ∧
       (tb.cols = canonCols ∧ ∀ r ∈ tb.rows, r.length = 4) ∧
       (∀ r ∈ tb.rows, cellAt r 0 = Cell.str t) ∧
       List.Pairwise (fun a b =>
         ¬ (cellAt a 0 = cellAt b 0 ∧ cellAt a 2 = cellAt b 2)) tb.rows) :
    ∃ out,
      ((tickers.filter (fun t => ¬ (Cell.str t) ∈ haveCells)).mapM fetch >>=
        fun liveFrames =>
          if cacheFrames ++ liveFrames = [] then .ok emptyCanon
          else dropnaDate (concatTables (cacheFrames ++ liveFrames)) >>=
            fun c => sortRowsByTickerDate c)
      = .ok out ∧
      out.cols = canonCols ∧
      List.Pairwise (fun a b => rowLeB 0 2 a b = true) out.rows ∧
      List.Pairwise (fun a b =>
        ¬ (cellAt a 0 = cellAt b 0 ∧ cellAt a 2 = cellAt b 2)) out.rows := by
  have hTneed : (tickers.filter (fun t => ¬ (Cell.str t) ∈ haveCells)).Nodup :=
    hT.filter _
  obtain ⟨liveFrames, hmapM, hf2⟩ := mapM_exists
    (l := tickers.filter (fun t => ¬ (Cell.str t) ∈ haveCells))
    (fun a _ => (hfetch a).imp (fun b hb => hb.1))
  rw [bindE_ok hmapM]
  have hlwf : ∀ f ∈ liveFrames,
      (f.cols = canonCols ∧ ∀ r ∈ f.rows, r.length = 4) ∧
      List.Pairwise (fun a b =>
        ¬ (cellAt a 0 = cellAt b 0 ∧ cellAt a 2 = cellAt b 2)) f.rows ∧
      ∃ t, t ∈ tickers.filter (fun u => ¬ (Cell.str u) ∈ haveCells) ∧
        ∀ r ∈ f.rows, cellAt r 0 = Cell.str t := by
    intro f hf
    obtain ⟨t, ht, hfok⟩ := mem_of_forall₂_right hf2 f hf
    obtain ⟨tb, htbok, hshape, hstr, hpw⟩ := hfetch t
    rw [hfok] at htbok
    have : f = tb := by
      simpa using htbok
    subst this
    exact ⟨hshape, hpw, t, ht, hstr⟩
  by_cases hfe : cacheFrames ++ liveFrames = []
  · rw [if_pos hfe]
    exact ⟨emptyCanon, rfl, rfl, .nil, .nil⟩
  · rw [if_neg hfe]
    have hallwf : ∀ f ∈ cacheFrames ++ liveFrames,
        f.cols = canonCols ∧ ∀ r ∈ f.rows, r.length = 4 := by
      intro f hf
      rcases List.mem_append.mp hf with h1 | h1
      · exact (hcwf f h1).1
      · exact (hlwf f h1).1
    have hconcat := concat_all_canon hfe hallwf
    rw [hconcat, dropnaDate_canon]
    rw [bindE_ok rfl]
    obtain ⟨u, hu, hucols, hperm, hpw⟩ := sortRowsByTickerDate_ok
      (t := ⟨canonCols, (((cacheFrames ++ liveFrames).map Table.rows).flatten).filter
        (fun r => cellAt r 2 ≠ Cell.null)⟩)
      (show List.indexOf? "ticker" canonCols = some 0 from rfl)
      (show List.indexOf? "date" canonCols = some 2 from rfl)
    refine ⟨u, hu, hucols, hpw, ?_⟩
    have hbig : List.Pairwise (fun a b =>
        ¬ (cellAt a 0 = cellAt b 0 ∧ cellAt a 2 = cellAt b 2))
        (((cacheFrames ++ liveFrames).map Table.rows).flatten) := by
      rw [List.pairwise_flatten]
      constructor
      · intro l hl
        obtain ⟨f, hf, hfl⟩ := List.mem_map.mp hl
        subst hfl
        rcases List.mem_append.mp hf with h1 | h1
        · exact (hcwf f h1).2
        · exact (hlwf f h1).2.1
      · rw [List.pairwise_map, List.pairwise_append]
        refine ⟨?_, ?_, ?_⟩
        · match cacheFrames, hone with
          | [], _ => exact .nil
          | [f], _ => exact List.pairwise_singleton _ _
        · have hp := forall₂_nodup_pairwise hf2 hTneed
          refine hp.imp ?_
          intro f1 f2 hex x hx y hy hxy
          obtain ⟨t1, t2, hne, hok1, hok2⟩ := hex
          obtain ⟨tb1, htb1, _, hstr1, _⟩ := hfetch t1
          obtain ⟨tb2, htb2, _, hstr2, _⟩ := hfetch t2
          rw [hok1] at htb1
          rw [hok2] at htb2
          have he1 : f1 = tb1 := by simpa using htb1
          have he2 : f2 = tb2 := by simpa using htb2
          subst he1
          subst he2
          rw [hstr1 x hx, hstr2 y hy] at hxy
          exact hne (by simpa using hxy.1)
        · intro f1 h1 f2 h2 x hx y hy hxy
          obtain ⟨_, _, t, ht, hstr⟩ := hlwf f2 h2
          have hxin : cellAt x 0 ∈ haveCells := hcov f1 h1 x hx
          have hyt : cellAt y 0 = Cell.str t := hstr y hy
          have htnot : ¬ (Cell.str t) ∈ haveCells := by
            have := List.mem_filter.mp ht
            simpa using this.2
          apply htnot
          rw [← hyt, ← hxy.1]
          exact hxin
    have hfil : List.Pairwise (fun a b =>
        ¬ (cellAt a 0 = cellAt b 0 ∧ cellAt a 2 = cellAt b 2))
        ((((cacheFrames ++ liveFrames).map Table.rows).flatten).filter
          (fun r => cellAt r 2 ≠ Cell.null)) :=
      List.Pairwise.sublist (List.filter_sublist _) hbig
    have hsymm : ∀ {x y : List Cell},
        ¬ (cellAt x 0 = cellAt y 0 ∧ cellAt x 2 = cellAt y 2) →
        ¬ (cellAt y 0 = cellAt x 0 ∧ cellAt y 2 = cellAt x 2) := by
      intro x y h hc
      exact h ⟨hc.1.symm, hc.2.symm⟩
    exact (hperm.pairwise_iff hsymm).mpr hfil


/-- C2 (amended): with a canonically-shaped used cache sheet that itself
has at most one row per (ticker, date), and fetched frames that are
canonically shaped, per-ticker and internally duplicate-free, the resolved
table carries the canonical columns, is sorted ascending by the
(ticker, date) key, and has at most one row per (ticker, date) — cache and
live sources never overlap because live data is fetched only for tickers
absent from the cached contribution.  (Duplicates inside a single source
are not removed, see the counterexample.) -/
theorem C2_sorted_unique (sector : String) (groups : List Entry)
    (sheets : List (String × Table)) (fetch : String → Except PyErr Table)
    (hsheet : ∀ sh, (lookupSheet sheets sector = some sh ∨
        lookupSheet sheets SHEET_NAME_FALLBACK = some sh) →
      sh.cols = canonCols ∧ (∀ r ∈ sh.rows, r.length = 4) ∧
      List.Pairwise (fun a b =>
        ¬ (cellAt a 0 = cellAt b 0 ∧ cellAt a 2 = cellAt b 2)) sh.rows)
    (hfetch : ∀ t, ∃ tb, fetch t = .ok tb ∧
       (tb.cols = canonCols ∧ ∀ r ∈ tb.rows, r.length = 4) ∧
       (∀ r ∈ tb.rows, cellAt r 0 = Cell.str t) ∧
       List.Pairwise (fun a b =>
         ¬ (cellAt a 0 = cellAt b 0 ∧ cellAt a 2 = cellAt b 2)) tb.rows) :
    ∃ out, get_sector_data sector groups sheets fetch = .ok out ∧
      out.cols = canonCols ∧
      List.Pairwise (fun a b => rowLeB 0 2 a b = true) out.rows ∧
      List.Pairwise (fun a b =>
        ¬ (cellAt a 0 = cellAt b 0 ∧ cellAt a 2 = cellAt b 2)) out.rows := by
  have hTnd : (dedupFirst ((groups.filter (fun e => e.sector = sector)).map
      (fun e => e.ticker))).Nodup := dedupFirst_nodup _
  cases hss : lookupSheet sheets sector with
  | some sh =>
    obtain ⟨hcols, hlen4, hunique⟩ := hsheet sh (Or.inl hss)
    have hquery : queryTickerIn sh (dedupFirst ((groups.filter
        (fun e => e.sector = sector)).map (fun e => e.ticker)))
        = .ok ⟨canonCols, sh.rows.filter (fun r => (dedupFirst ((groups.filter
            (fun e => e.sector = sector)).map (fun e => e.ticker))).any
            (fun t => cellAt r 0 = Cell.str t))⟩ := by
      simp only [queryTickerIn, hcols]
      rfl
    have hFwf : ∀ f ∈ [(⟨canonCols, sh.rows.filter (fun r => (dedupFirst ((groups.filter
          (fun e => e.sector = sector)).map (fun e => e.ticker))).any
          (fun t => cellAt r 0 = Cell.str t))⟩ : Table)],
        f.cols = canonCols ∧ ∀ r ∈ f.rows, r.length = 4 := by
      intro f hf
      simp only [List.mem_singleton] at hf
      subst hf
      exact ⟨rfl, fun r hr => hlen4 r (List.mem_of_mem_filter hr)⟩
    obtain ⟨out, heq, hprops⟩ := resolveTail fetch
      (dedupFirst ((groups.filter (fun e => e.sector = sector)).map (fun e => e.ticker)))
      [⟨canonCols, sh.rows.filter (fun r => (dedupFirst ((groups.filter
          (fun e => e.sector = sector)).map (fun e => e.ticker))).any
          (fun t => cellAt r 0 = Cell.str t))⟩]
      ((concatTables [⟨canonCols, sh.rows.filter (fun r => (dedupFirst ((groups.filter
          (fun e => e.sector = sector)).map (fun e => e.ticker))).any
          (fun t => cellAt r 0 = Cell.str t))⟩]).rows.map (fun r => cellAt r 0))
      hTnd
      (by
        intro f hf
        simp only [List.mem_singleton] at hf
        subst hf
        refine ⟨⟨rfl, fun r hr => hlen4 r (List.mem_of_mem_filter hr)⟩, ?_⟩
        exact List.Pairwise.sublist (List.filter_sublist _) hunique)
      (by
        intro f hf r hr
        simp only [List.mem_singleton] at hf
        subst hf
        rw [concat_all_canon (by simp) hFwf]
        refine List.mem_map.mpr ⟨r, ?_, rfl⟩
        simp only [List.map_cons, List.map_nil, List.flatten]
        simpa using hr)
      (by simp)
      hfetch
    refine ⟨out, ?_, hprops⟩
    rw [← heq]
    simp only [get_sector_data, hss]
    rw [bindE_ok hquery]
    rfl
  | none =>
    cases hfb : lookupSheet sheets SHEET_NAME_FALLBACK with
    | some sh =>
      obtain ⟨hcols, hlen4, hunique⟩ := hsheet sh (Or.inr hfb)
      have hquery : queryTickerIn sh (dedupFirst ((groups.filter
          (fun e => e.sector = sector)).map (fun e => e.ticker)))
          = .ok ⟨canonCols, sh.rows.filter (fun r => (dedupFirst ((groups.filter
              (fun e => e.sector = sector)).map (fun e => e.ticker))).any
              (fun t => cellAt r 0 = Cell.str t))⟩ := by
        simp only [queryTickerIn, hcols]
        rfl
      have hFwf : ∀ f ∈ [(⟨canonCols, sh.rows.filter (fun r => (dedupFirst ((groups.filter
            (fun e => e.sector = sector)).map (fun e => e.ticker))).any
            (fun t => cellAt r 0 = Cell.str t))⟩ : Table)],
          f.cols = canonCols ∧ ∀ r ∈ f.rows, r.length = 4 := by
        intro f hf
        simp only [List.mem_singleton] at hf
        subst hf
        exact ⟨rfl, fun r hr => hlen4 r (List.mem_of_mem_filter hr)⟩
      obtain ⟨out, heq, hprops⟩ := resolveTail fetch
        (dedupFirst ((groups.filter (fun e => e.sector = sector)).map (fun e => e.ticker)))
        [⟨canonCols, sh.rows.filter (fun r => (dedupFirst ((groups.filter
            (fun e => e.sector = sector)).map (fun e => e.ticker))).any
            (fun t => cellAt r 0 = Cell.str t))⟩]
        ((concatTables [⟨canonCols, sh.rows.filter (fun r => (dedupFirst ((groups.filter
            (fun e => e.sector = sector)).map (fun e => e.ticker))).any
            (fun t => cellAt r 0 = Cell.str t))⟩]).rows.map (fun r => cellAt r 0))
        hTnd
        (by
          intro f hf
          simp only [List.mem_singleton] at hf
          subst hf
          refine ⟨⟨rfl, fun r hr => hlen4 r (List.mem_of_mem_filter hr)⟩, ?_⟩
          exact List.Pairwise.sublist (List.filter_sublist _) hunique)
        (by
          intro f hf r hr
          simp only [List.mem_singleton] at hf
          subst hf
          rw [concat_all_canon (by simp) hFwf]
          refine List.mem_map.mpr ⟨r, ?_, rfl⟩
          simp only [List.map_cons, List.map_nil, List.flatten]
          simpa using hr)
        (by simp)
        hfetch
      refine ⟨out, ?_, hprops⟩
      rw [← heq]
      simp only [get_sector_data, hss, hfb]
      rw [bindE_ok hquery]
      rfl
    | none =>
      obtain ⟨out, heq, hprops⟩ := resolveTail fetch
        (dedupFirst ((groups.filter (fun e => e.sector = sector)).map (fun e => e.ticker)))
        [] [] hTnd (by simp) (by simp) (by simp) hfetch
      refine ⟨out, ?_, hprops⟩
      rw [← heq]
      simp only [get_sector_data, hss, hfb]
      rfl


/-- C2 witness: the spec's own scenario — cache covers ticker A, the live
provider covers ticker B. -/
theorem C2_sorted_unique_wit :
    ∃ out, get_sector_data "S" gAB [("S", sheetA)]
        (fun t => .ok ⟨canonCols, [[.str t, .null, .date 20240202, .num 7]]⟩) = .ok out ∧
      out.cols = canonCols ∧
      List.Pairwise (fun a b => rowLeB 0 2 a b = true) out.rows ∧
      List.Pairwise (fun a b =>
        ¬ (cellAt a 0 = cellAt b 0 ∧ cellAt a 2 = cellAt b 2)) out.rows := by
  apply C2_sorted_unique
  · intro sh h
    rcases h with h | h
    · have he : sheetA = sh := by
        simpa [lookupSheet] using h
      subst he
      refine ⟨rfl, ?_, ?_⟩
      · intro r hr
        simp only [sheetA, List.mem_singleton] at hr
        subst hr
        rfl
      · exact List.pairwise_singleton _ _
    · simp [lookupSheet, SHEET_NAME_FALLBACK] at h
  · intro t
    refine ⟨⟨canonCols, [[.str t, .null, .date 20240202, .num 7]]⟩, rfl, ⟨rfl, ?_⟩, ?_, ?_⟩
    · intro r hr
      simp only [List.mem_singleton] at hr
      subst hr
      rfl
    · intro r hr
      simp only [List.mem_singleton] at hr
      subst hr
      rfl
    · exact List.pairwise_singleton _ _

end TwStock
